import Mathlib

/-!
Verification of the `keyfinder` repository: a differential-cryptanalysis
tool for a toy 16-bit SPN cipher (4x4 S-box, 5 round subkeys).

The development shallowly embeds the C++ sources:
  * `src/spn.cpp` / `src/spn.hpp` — the cipher primitives,
  * `KeyFinder/keyfinder.cpp` / `keyfinder.hpp` — the key-recovery engine,
  * `KeyFinder/main.cpp` — the CLI orchestration.

Machine 16-bit words (`uint16_t`) are embedded as `Nat`.  All the C++
routines modelled here only combine values below `2 ^ 16` with `^`, `&`,
`|`, `<<` and `>>` in ways that never overflow 16 bits on the stated
domains, so no explicit `% 2 ^ 16` truncation is required; boundedness is
tracked by hypotheses and lemmas instead.
-/

/-! ## Cipher primitives (`src/spn.cpp`) -/

/-- State of an `SPN` object after `setSboxes` and a key schedule ran:
`SB`/`iSB` model the 16-entry arrays `m_SB`/`m_iSB`, `key` models the
5-entry subkey vector `m_subkeys` (only indices 0..4 are ever read). -/
structure SPN where
  SB : Nat → Nat
  iSB : Nat → Nat
  key : Nat → Nat

/-- Nibble-wise application of a 16-entry box `f` to a 16-bit word,
the common shape of `SPN::subst` and `SPN::isubst`:
`y = f[x & 0xf]; y ^= f[(x>>4) & 0xf] << 4; y ^= f[(x>>8) & 0xf] << 8;
y ^= f[(x>>12) & 0xf] << 12`. -/
def nibbleMap (f : Nat → Nat) (x : Nat) : Nat :=
  f (x &&& 0xf) ^^^ (f ((x >>> 4) &&& 0xf) <<< 4) ^^^
    (f ((x >>> 8) &&& 0xf) <<< 8) ^^^ (f ((x >>> 12) &&& 0xf) <<< 12)

/-- Embedding of `SPN::subst`. -/
def SPN.subst (S : SPN) (x : Nat) : Nat := nibbleMap S.SB x

/-- Embedding of `SPN::isubst`. -/
def SPN.isubst (S : SPN) (x : Nat) : Nat := nibbleMap S.iSB x

/-- Embedding of `SPN::transp`: the fixed bit permutation, written as the
same xor-fold of masked shifts as the source. -/
def transp (x : Nat) : Nat :=
  (x &&& 0x8421) ^^^ ((x &&& 0x0842) <<< 3) ^^^ ((x &&& 0x0084) <<< 6) ^^^
    ((x &&& 0x0008) <<< 9) ^^^ ((x &&& 0x1000) >>> 9) ^^^
    ((x &&& 0x2100) >>> 6) ^^^ ((x &&& 0x4210) >>> 3)

/-- Embedding of `SPN::itransp`, which the source defines as a direct call
to `transp`. -/
def itransp (x : Nat) : Nat := transp x

/-- Embedding of `SPN::encrypt` with the round loop
(`for i = 1; i < Nr; i++` with `Nr = 4`) unrolled: initial whitening with
subkey 0, three full rounds `subst; transp; xor subkey i`, and a final
round `subst; xor subkey 4` without permutation. -/
def SPN.encrypt (S : SPN) (pt : Nat) : Nat :=
  let x0 := pt ^^^ S.key 0
  let x1 := transp (S.subst x0) ^^^ S.key 1
  let x2 := transp (S.subst x1) ^^^ S.key 2
  let x3 := transp (S.subst x2) ^^^ S.key 3
  S.subst x3 ^^^ S.key 4

/-- Embedding of `SPN::decrypt` with the round loop
(`for i = Nr - 1; i >= 1; i--`) unrolled. -/
def SPN.decrypt (S : SPN) (ct : Nat) : Nat :=
  let x4 := S.isubst (ct ^^^ S.key 4)
  let x3 := S.isubst (itransp (x4 ^^^ S.key 3))
  let x2 := S.isubst (itransp (x3 ^^^ S.key 2))
  let x1 := S.isubst (itransp (x2 ^^^ S.key 1))
  x1 ^^^ S.key 0

/-- Embedding of `SPN::decryptWithKeys`: same round structure as
`decrypt`, but the subkey vector is a parameter. -/
def SPN.decryptWithKeys (S : SPN) (ct : Nat) (ks : Nat → Nat) : Nat :=
  let x4 := S.isubst (ct ^^^ ks 4)
  let x3 := S.isubst (itransp (x4 ^^^ ks 3))
  let x2 := S.isubst (itransp (x3 ^^^ ks 2))
  let x1 := S.isubst (itransp (x2 ^^^ ks 1))
  x1 ^^^ ks 0

/-- Validity of an `SPN` state as assumed by the spec: the S-box was a
permutation of `0..15` (so `setSboxes` made `m_iSB` its left inverse) and
the key schedule succeeded (each subkey parsed from 4 hex digits, hence
below `2 ^ 16`). -/
structure ValidSPN (S : SPN) : Prop where
  sb_lt : ∀ v < 16, S.SB v < 16
  isb_sb : ∀ v < 16, S.iSB (S.SB v) = v
  key_lt : ∀ i < 5, S.key i < 65536

/-! ### Bitwise toolkit

Distribution and bound lemmas used to reason about the 16-bit words
nibble by nibble without ever enumerating the word domain. -/

set_option maxHeartbeats 1000000
set_option maxRecDepth 4000

theorem xor_left_comm (a b c : Nat) : a ^^^ (b ^^^ c) = b ^^^ (a ^^^ c) := by
  rw [← Nat.xor_assoc, Nat.xor_comm a b, Nat.xor_assoc]

theorem xor_shiftLeft (a b s : Nat) : (a ^^^ b) <<< s = (a <<< s) ^^^ (b <<< s) := by
  apply Nat.eq_of_testBit_eq
  intro j
  simp only [Nat.testBit_shiftLeft, Nat.testBit_xor]
  cases decide (j ≥ s) <;> simp

theorem xor_shiftRight (a b s : Nat) : (a ^^^ b) >>> s = (a >>> s) ^^^ (b >>> s) := by
  apply Nat.eq_of_testBit_eq
  intro j
  simp only [Nat.testBit_shiftRight, Nat.testBit_xor]

theorem and_shiftLeft (a b s : Nat) : (a <<< s) &&& (b <<< s) = (a &&& b) <<< s := by
  apply Nat.eq_of_testBit_eq
  intro j
  simp only [Nat.testBit_shiftLeft, Nat.testBit_and]
  cases decide (j ≥ s) <;> simp

theorem and15_eq_mod (a : Nat) : a &&& 15 = a % 16 := by
  have h := Nat.and_pow_two_sub_one_eq_mod a 4
  norm_num at h
  exact h

theorem and15_self {a : Nat} (ha : a < 16) : a &&& 15 = a := by
  rw [and15_eq_mod]; exact Nat.mod_eq_of_lt ha

theorem shiftLeft_and15 (c : Nat) {s : Nat} (hs : 4 ≤ s) : (c <<< s) &&& 15 = 0 := by
  rw [and15_eq_mod, Nat.shiftLeft_eq]
  have : (16 : Nat) ∣ c * 2 ^ s := by
    have : (2 : Nat) ^ 4 ∣ 2 ^ s := pow_dvd_pow 2 hs
    exact Dvd.dvd.mul_left (by norm_num at this ⊢; exact this) c
  omega

theorem shiftRight_eq_zero {a s : Nat} (h : a < 2 ^ s) : a >>> s = 0 := by
  rw [Nat.shiftRight_eq_div_pow]
  exact Nat.div_eq_of_lt h

theorem shiftLeft_shiftRight_sub (c : Nat) {s t : Nat} (h : t ≤ s) :
    (c <<< s) >>> t = c <<< (s - t) := by
  rw [Nat.shiftLeft_eq, Nat.shiftLeft_eq, Nat.shiftRight_eq_div_pow]
  have hs : (2 : Nat) ^ s = 2 ^ (s - t) * 2 ^ t := by
    rw [← pow_add]
    congr 1
    omega
  rw [hs, ← Nat.mul_assoc]
  exact Nat.mul_div_cancel _ (Nat.two_pow_pos t)

theorem shiftLeft_lt_65536 {n : Nat} (hn : n < 16) {s : Nat} (hs : s ≤ 12) :
    n <<< s < 65536 := by
  rw [Nat.shiftLeft_eq]
  have h2 : (2 : Nat) ^ s ≤ 2 ^ 12 := Nat.pow_le_pow_right (by norm_num) hs
  have := Nat.mul_le_mul (Nat.le_of_lt_succ hn) h2
  norm_num at this ⊢
  omega

theorem xor_lt_65536 {a b : Nat} (ha : a < 65536) (hb : b < 65536) :
    a ^^^ b < 65536 := by
  have : a ^^^ b < 2 ^ 16 :=
    Nat.xor_lt_two_pow (by norm_num at ha ⊢; exact ha)
      (by norm_num at hb ⊢; exact hb)
  norm_num at this; exact this

theorem xor_cancel_r (a b : Nat) : (a ^^^ b) ^^^ b = a := Nat.xor_cancel_right b a

theorem xor_lt_16 {a b : Nat} (ha : a < 16) (hb : b < 16) : a ^^^ b < 16 := by
  have h := @Nat.xor_lt_two_pow a b 4 (by norm_num; omega) (by norm_num; omega)
  norm_num at h
  exact h

theorem nib_lt (x k : Nat) : (x >>> k) &&& 0xf < 16 :=
  Nat.lt_succ_of_le (Nat.and_le_right)

/-! ### Nibble assembly facts

These close the gap between the word-level xor/shift assembly used by
`nibbleMap` and per-nibble reasoning. -/

/-- Extracting nibble 0 from an assembled word. -/
theorem asm_nib0 {a b c d : Nat} (ha : a < 16) :
    ((a ^^^ (b <<< 4) ^^^ (c <<< 8) ^^^ (d <<< 12)) &&& 0xf) = a := by
  show _ &&& 15 = _
  rw [Nat.and_xor_distrib_right, Nat.and_xor_distrib_right, Nat.and_xor_distrib_right]
  rw [and15_self ha, shiftLeft_and15 b (by norm_num), shiftLeft_and15 c (by norm_num),
    shiftLeft_and15 d (by norm_num)]
  simp

/-- Extracting nibble 1 from an assembled word. -/
theorem asm_nib1 {a b c d : Nat} (ha : a < 16) (hb : b < 16) :
    (((a ^^^ (b <<< 4) ^^^ (c <<< 8) ^^^ (d <<< 12)) >>> 4) &&& 0xf) = b := by
  show _ &&& 15 = _
  rw [xor_shiftRight, xor_shiftRight, xor_shiftRight]
  rw [shiftRight_eq_zero (show a < 2 ^ 4 by norm_num; omega),
    Nat.shiftLeft_shiftRight,
    shiftLeft_shiftRight_sub c (by norm_num), shiftLeft_shiftRight_sub d (by norm_num)]
  rw [Nat.and_xor_distrib_right, Nat.and_xor_distrib_right, Nat.and_xor_distrib_right]
  rw [and15_self hb, shiftLeft_and15 c (by norm_num), shiftLeft_and15 d (by norm_num)]
  simp

/-- Extracting nibble 2 from an assembled word. -/
theorem asm_nib2 {a b c d : Nat} (ha : a < 16) (hb : b < 16) (hc : c < 16) :
    (((a ^^^ (b <<< 4) ^^^ (c <<< 8) ^^^ (d <<< 12)) >>> 8) &&& 0xf) = c := by
  show _ &&& 15 = _
  rw [xor_shiftRight, xor_shiftRight, xor_shiftRight]
  rw [shiftRight_eq_zero (show a < 2 ^ 8 by norm_num; omega),
    shiftRight_eq_zero (show b <<< 4 < 2 ^ 8 by rw [Nat.shiftLeft_eq]; norm_num; omega),
    Nat.shiftLeft_shiftRight, shiftLeft_shiftRight_sub d (by norm_num)]
  rw [Nat.and_xor_distrib_right, Nat.and_xor_distrib_right, Nat.and_xor_distrib_right]
  rw [and15_self hc, shiftLeft_and15 d (by norm_num)]
  simp

/-- Extracting nibble 3 from an assembled word. -/
theorem asm_nib3 {a b c d : Nat} (ha : a < 16) (hb : b < 16) (hc : c < 16)
    (hd : d < 16) :
    (((a ^^^ (b <<< 4) ^^^ (c <<< 8) ^^^ (d <<< 12)) >>> 12) &&& 0xf) = d := by
  show _ &&& 15 = _
  rw [xor_shiftRight, xor_shiftRight, xor_shiftRight]
  rw [shiftRight_eq_zero (show a < 2 ^ 12 by norm_num; omega),
    shiftRight_eq_zero (show b <<< 4 < 2 ^ 12 by rw [Nat.shiftLeft_eq]; norm_num; omega),
    shiftRight_eq_zero (show c <<< 8 < 2 ^ 12 by rw [Nat.shiftLeft_eq]; norm_num; omega),
    Nat.shiftLeft_shiftRight]
  rw [Nat.and_xor_distrib_right, Nat.and_xor_distrib_right, Nat.and_xor_distrib_right]
  rw [and15_self hd]
  simp

/-- An assembled word of four nibbles is a 16-bit word. -/
theorem asm_lt {a b c d : Nat} (ha : a < 16) (hb : b < 16) (hc : c < 16)
    (hd : d < 16) :
    (a ^^^ (b <<< 4) ^^^ (c <<< 8) ^^^ (d <<< 12)) < 65536 := by
  have h1 : a < 65536 := by omega
  have h2 := shiftLeft_lt_65536 hb (show 4 ≤ 12 by norm_num)
  have h3 := shiftLeft_lt_65536 hc (show 8 ≤ 12 by norm_num)
  have h4 := shiftLeft_lt_65536 hd (le_refl 12)
  exact xor_lt_65536 (xor_lt_65536 (xor_lt_65536 h1 h2) h3) h4

theorem testBit_15 (k : Nat) : (15 : Nat).testBit k = decide (k < 4) := by
  have h := Nat.testBit_two_pow_sub_one 4 k
  norm_num at h
  exact h

theorem testBit_65535 (k : Nat) : (65535 : Nat).testBit k = decide (k < 16) := by
  have h := Nat.testBit_two_pow_sub_one 16 k
  norm_num at h
  exact h

theorem testBit_ge_16 {x : Nat} (hx : x < 65536) {j : Nat} (hj : 16 ≤ j) :
    x.testBit j = false := by
  apply Nat.testBit_lt_two_pow
  calc x < 65536 := hx
    _ = 2 ^ 16 := by norm_num
    _ ≤ 2 ^ j := Nat.pow_le_pow_right (by norm_num) hj

/-- Reassembling the four nibbles of a 16-bit word gives the word back. -/
theorem nib_assemble (x : Nat) (hx : x < 65536) :
    ((x &&& 0xf) ^^^ (((x >>> 4) &&& 0xf) <<< 4) ^^^
      (((x >>> 8) &&& 0xf) <<< 8) ^^^ (((x >>> 12) &&& 0xf) <<< 12)) = x := by
  apply Nat.eq_of_testBit_eq
  intro j
  simp only [Nat.testBit_xor, Nat.testBit_and, Nat.testBit_shiftLeft,
    Nat.testBit_shiftRight]
  rcases Nat.lt_or_ge j 4 with h4 | h4
  · rw [testBit_15 j, decide_eq_true h4,
      decide_eq_false (show ¬ j ≥ 4 by omega),
      decide_eq_false (show ¬ j ≥ 8 by omega),
      decide_eq_false (show ¬ j ≥ 12 by omega)]
    simp
  rcases Nat.lt_or_ge j 8 with h8 | h8
  · rw [testBit_15 j, decide_eq_false (show ¬ j < 4 by omega),
      decide_eq_true (show j ≥ 4 by omega),
      decide_eq_false (show ¬ j ≥ 8 by omega),
      decide_eq_false (show ¬ j ≥ 12 by omega),
      testBit_15 (j - 4), decide_eq_true (show j - 4 < 4 by omega),
      show 4 + (j - 4) = j by omega]
    simp
  rcases Nat.lt_or_ge j 12 with h12 | h12
  · rw [testBit_15 j, decide_eq_false (show ¬ j < 4 by omega),
      decide_eq_true (show j ≥ 4 by omega),
      decide_eq_true (show j ≥ 8 by omega),
      decide_eq_false (show ¬ j ≥ 12 by omega),
      testBit_15 (j - 4), decide_eq_false (show ¬ j - 4 < 4 by omega),
      testBit_15 (j - 8), decide_eq_true (show j - 8 < 4 by omega),
      show 8 + (j - 8) = j by omega]
    simp
  rcases Nat.lt_or_ge j 16 with h16 | h16
  · rw [testBit_15 j, decide_eq_false (show ¬ j < 4 by omega),
      decide_eq_true (show j ≥ 4 by omega),
      decide_eq_true (show j ≥ 8 by omega),
      decide_eq_true (show j ≥ 12 by omega),
      testBit_15 (j - 4), decide_eq_false (show ¬ j - 4 < 4 by omega),
      testBit_15 (j - 8), decide_eq_false (show ¬ j - 8 < 4 by omega),
      testBit_15 (j - 12), decide_eq_true (show j - 12 < 4 by omega),
      show 12 + (j - 12) = j by omega]
    simp
  · rw [testBit_15 j, decide_eq_false (show ¬ j < 4 by omega),
      testBit_15 (j - 4), decide_eq_false (show ¬ j - 4 < 4 by omega),
      testBit_15 (j - 8), decide_eq_false (show ¬ j - 8 < 4 by omega),
      testBit_15 (j - 12), decide_eq_false (show ¬ j - 12 < 4 by omega),
      testBit_ge_16 hx h16]
    simp

theorem nibbleMap_lt (f : Nat → Nat) (hf : ∀ v < 16, f v < 16) (x : Nat) :
    nibbleMap f x < 65536 := by
  have h0 := hf (x &&& 0xf) (by simpa using nib_lt x 0)
  have h1 := hf ((x >>> 4) &&& 0xf) (nib_lt x 4)
  have h2 := hf ((x >>> 8) &&& 0xf) (nib_lt x 8)
  have h3 := hf ((x >>> 12) &&& 0xf) (nib_lt x 12)
  exact asm_lt h0 h1 h2 h3

/-- Applying the inverse box nibble-wise undoes `nibbleMap f` on 16-bit
words, provided `g` inverts `f` on nibbles. -/
theorem nibbleMap_left_inverse (f g : Nat → Nat)
    (hf : ∀ v < 16, f v < 16) (hgf : ∀ v < 16, g (f v) = v)
    (x : Nat) (hx : x < 65536) : nibbleMap g (nibbleMap f x) = x := by
  have e0 : x &&& 0xf < 16 := by simpa using nib_lt x 0
  have e1 := nib_lt x 4
  have e2 := nib_lt x 8
  have e3 := nib_lt x 12
  have h0 := hf _ e0
  have h1 := hf _ e1
  have h2 := hf _ e2
  have h3 := hf _ e3
  have n0 := @asm_nib0 (f (x &&& 0xf)) (f ((x >>> 4) &&& 0xf))
    (f ((x >>> 8) &&& 0xf)) (f ((x >>> 12) &&& 0xf)) h0
  have n1 := @asm_nib1 (f (x &&& 0xf)) (f ((x >>> 4) &&& 0xf))
    (f ((x >>> 8) &&& 0xf)) (f ((x >>> 12) &&& 0xf)) h0 h1
  have n2 := @asm_nib2 (f (x &&& 0xf)) (f ((x >>> 4) &&& 0xf))
    (f ((x >>> 8) &&& 0xf)) (f ((x >>> 12) &&& 0xf)) h0 h1 h2
  have n3 := asm_nib3 h0 h1 h2 h3
  simp only [nibbleMap] at n0 n1 n2 n3 ⊢
  rw [n0, n1, n2, n3, hgf _ e0, hgf _ e1, hgf _ e2, hgf _ e3]
  exact nib_assemble x hx

/-! ### Facts about the bit permutation -/

/-- The bit permutation is xor-linear. -/
theorem transp_xor (a b : Nat) : transp (a ^^^ b) = transp a ^^^ transp b := by
  simp only [transp, Nat.and_xor_distrib_right, xor_shiftLeft, xor_shiftRight]
  simp only [Nat.xor_assoc]
  congr 1
  simp only [← Nat.xor_assoc]
  congr 1
  simp [Nat.xor_assoc, Nat.xor_comm, xor_left_comm]

/-- Action of the bit permutation on each nibble, checked exhaustively on
the 16 values of the nibble. -/
theorem transp_transp_nib0 : ∀ n : Fin 16, transp (transp n.val) = n.val := by decide

theorem transp_transp_nib1 : ∀ n : Fin 16,
    transp (transp (n.val <<< 4)) = n.val <<< 4 := by decide

theorem transp_transp_nib2 : ∀ n : Fin 16,
    transp (transp (n.val <<< 8)) = n.val <<< 8 := by decide

theorem transp_transp_nib3 : ∀ n : Fin 16,
    transp (transp (n.val <<< 12)) = n.val <<< 12 := by decide

theorem transp_lt_nib0 : ∀ n : Fin 16, transp n.val < 65536 := by decide

theorem transp_lt_nib1 : ∀ n : Fin 16, transp (n.val <<< 4) < 65536 := by decide

theorem transp_lt_nib2 : ∀ n : Fin 16, transp (n.val <<< 8) < 65536 := by decide

theorem transp_lt_nib3 : ∀ n : Fin 16, transp (n.val <<< 12) < 65536 := by decide

/-- Nibble decomposition of a 16-bit word, for rewriting. -/
theorem nib_decompose (x : Nat) (hx : x < 65536) :
    x = (x &&& 0xf) ^^^ (((x >>> 4) &&& 0xf) <<< 4) ^^^
      (((x >>> 8) &&& 0xf) <<< 8) ^^^ (((x >>> 12) &&& 0xf) <<< 12) :=
  (nib_assemble x hx).symm

/-- The bit permutation maps 16-bit words to 16-bit words. -/
theorem transp_lt (x : Nat) (hx : x < 65536) : transp x < 65536 := by
  rw [nib_decompose x hx, transp_xor, transp_xor, transp_xor]
  exact xor_lt_65536 (xor_lt_65536
    (xor_lt_65536 (transp_lt_nib0 ⟨_, by simpa using nib_lt x 0⟩)
      (transp_lt_nib1 ⟨_, nib_lt x 4⟩))
    (transp_lt_nib2 ⟨_, nib_lt x 8⟩)) (transp_lt_nib3 ⟨_, nib_lt x 12⟩)

/-- The bit permutation is an involution on 16-bit words. -/
theorem transp_transp (x : Nat) (hx : x < 65536) : transp (transp x) = x := by
  conv_lhs => rw [nib_decompose x hx]
  rw [transp_xor, transp_xor, transp_xor, transp_xor, transp_xor, transp_xor]
  rw [transp_transp_nib0 ⟨_, by simpa using nib_lt x 0⟩,
    transp_transp_nib1 ⟨_, nib_lt x 4⟩, transp_transp_nib2 ⟨_, nib_lt x 8⟩,
    transp_transp_nib3 ⟨_, nib_lt x 12⟩]
  exact nib_assemble x hx

/-! ### Round-trip of the cipher -/

theorem subst_lt (S : SPN) (hS : ValidSPN S) (x : Nat) : S.subst x < 65536 :=
  nibbleMap_lt S.SB hS.sb_lt x

theorem isubst_subst (S : SPN) (hS : ValidSPN S) (x : Nat) (hx : x < 65536) :
    S.isubst (S.subst x) = x :=
  nibbleMap_left_inverse S.SB S.iSB hS.sb_lt hS.isb_sb x hx

/-- Undoing one full middle round: `isubst (itransp ((transp (subst y) ^ k) ^ k))`
recovers `y`. -/
theorem round_undo (S : SPN) (hS : ValidSPN S) (y k : Nat) (hy : y < 65536) :
    S.isubst (itransp ((transp (S.subst y) ^^^ k) ^^^ k)) = y := by
  rw [xor_cancel_r, itransp, transp_transp _ (subst_lt S hS y)]
  exact isubst_subst S hS y hy

/-- Claim C2 (cipher round-trip): for every 16-bit plaintext and every
valid key state (successful key schedule, S-box a permutation of 0..15
with `iSB` built by `setSboxes`), `decrypt (encrypt pt) = pt`. -/
theorem decrypt_encrypt_roundtrip (S : SPN) (hS : ValidSPN S) (pt : Nat)
    (hpt : pt < 65536) : S.decrypt (S.encrypt pt) = pt := by
  have k0 := hS.key_lt 0 (by norm_num)
  have k1 := hS.key_lt 1 (by norm_num)
  have k2 := hS.key_lt 2 (by norm_num)
  have k3 := hS.key_lt 3 (by norm_num)
  have b0 : pt ^^^ S.key 0 < 65536 := xor_lt_65536 hpt k0
  have b1 : transp (S.subst (pt ^^^ S.key 0)) ^^^ S.key 1 < 65536 :=
    xor_lt_65536 (transp_lt _ (subst_lt S hS _)) k1
  have b2 : transp (S.subst (transp (S.subst (pt ^^^ S.key 0)) ^^^ S.key 1)) ^^^
      S.key 2 < 65536 := xor_lt_65536 (transp_lt _ (subst_lt S hS _)) k2
  have b3 : transp (S.subst (transp (S.subst (transp (S.subst (pt ^^^ S.key 0)) ^^^
      S.key 1)) ^^^ S.key 2)) ^^^ S.key 3 < 65536 :=
    xor_lt_65536 (transp_lt _ (subst_lt S hS _)) k3
  show S.isubst (itransp ((S.isubst (itransp ((S.isubst (itransp ((S.isubst
      ((S.subst _ ^^^ S.key 4) ^^^ S.key 4)) ^^^ S.key 3))) ^^^ S.key 2))) ^^^
      S.key 1)) ^^^ S.key 0 = pt
  rw [xor_cancel_r, isubst_subst S hS _ b3, round_undo S hS _ _ b2,
    round_undo S hS _ _ b1, round_undo S hS _ _ b0, xor_cancel_r]

/-- The S-box of scenario S1 in the spec,
`SB = [14,4,13,1,2,15,11,8,3,10,6,12,5,9,0,7]`, as the array `m_SB`. -/
def sb1 : Nat → Nat := fun v => [14, 4, 13, 1, 2, 15, 11, 8, 3, 10, 6, 12, 5, 9, 0, 7].getD v 0

/-- The inverse array `m_iSB` that `setSboxes` builds for `sb1`. -/
def isb1 : Nat → Nat := fun v => [14, 3, 4, 8, 1, 12, 10, 15, 7, 13, 9, 6, 11, 2, 0, 5].getD v 0

/-- The subkey vector parsed from the key string `"0011223344556677 8899"`
of scenario S1 (key schedule of `0011 2233 4455 6677 8899`). -/
def keyS1 : Nat → Nat := fun i => [0x0011, 0x2233, 0x4455, 0x6677, 0x8899].getD i 0

/-- A concrete valid `SPN` state: S-box S1 with the S1 key. -/
def spn1 : SPN := ⟨sb1, isb1, keyS1⟩

theorem spn1_valid : ValidSPN spn1 :=
  ⟨by decide, by decide, by decide⟩

/-- Witness for claim C2: the round trip at the concrete valid state
`spn1` and plaintext `0xABCD`. -/
theorem decrypt_encrypt_roundtrip_witness :
    spn1.decrypt (spn1.encrypt 0xABCD) = 0xABCD :=
  decrypt_encrypt_roundtrip spn1 spn1_valid 0xABCD (by norm_num)

/-- Claim C9 (permutation involution): for every 16-bit word,
`transp (transp x) = x`, and `itransp` coincides with `transp`
everywhere. -/
theorem transp_involution_and_itransp_eq :
    (∀ x : Fin 65536, transp (transp x.val) = x.val) ∧
      ∀ x : Nat, itransp x = transp x :=
  ⟨fun x => transp_transp x.val x.isLt, fun _ => rfl⟩

/-! ### Claim C3: the spec's composition formula for `encrypt`

The spec writes
`encrypt(pt) = SB ∘ (xor K4) ∘ (P ∘ SB ∘ xor K3) ∘ (P ∘ SB ∘ xor K2)
∘ (P ∘ SB ∘ xor K1) ∘ (xor K0) applied to pt`.
Under the standard right-to-left reading of `∘` (the factor next to the
argument acts first) this is the function `encryptSpecFormula` below;
under the opposite left-to-right reading it is `encryptSpecFormulaRev`.
Neither equals the source's `encrypt`, whose rounds apply the key xor
*after* substitution and permutation. -/

/-- The spec formula for C3 under the standard reading of `∘`:
`xor K0`, then `xor K1`, `SB`, `P`, then `xor K2`, `SB`, `P`, then
`xor K3`, `SB`, `P`, then `xor K4`, `SB`. -/
def encryptSpecFormula (S : SPN) (pt : Nat) : Nat :=
  S.subst ((transp (S.subst ((transp (S.subst ((transp
    (S.subst (pt ^^^ S.key 0 ^^^ S.key 1))) ^^^ S.key 2))) ^^^ S.key 3))) ^^^ S.key 4)

/-- The spec formula for C3 under the left-to-right reading of `∘`:
`SB`, `xor K4`, then `P`, `SB`, `xor K3`, then `P`, `SB`, `xor K2`, then
`P`, `SB`, `xor K1`, then `xor K0`. -/
def encryptSpecFormulaRev (S : SPN) (pt : Nat) : Nat :=
  ((S.subst (transp (S.subst (transp (S.subst (transp
    (S.subst pt ^^^ S.key 4)) ^^^ S.key 3)) ^^^ S.key 2))) ^^^ S.key 1) ^^^ S.key 0

/-- Counterexample to claim C3 as stated: at the S1 S-box and key and
plaintext `0`, the source's `encrypt` (key xor after substitution and
permutation in each round) disagrees with the spec's composition formula
under both readings of `∘`.  `encrypt` gives `0x2f54`, the formula gives
`0x9abe` (standard reading) resp. `0xc88e` (left-to-right reading). -/
theorem encrypt_spec_formula_counterexample :
    spn1.encrypt 0 ≠ encryptSpecFormula spn1 0 ∧
      spn1.encrypt 0 ≠ encryptSpecFormulaRev spn1 0 := by
  constructor <;> decide

/-- Amended claim C3: `encrypt` is the composition
`(xor K4) ∘ SB ∘ (xor K3) ∘ P ∘ SB ∘ (xor K2) ∘ P ∘ SB ∘ (xor K1) ∘ P ∘ SB
∘ (xor K0)` (standard reading): each round applies the key xor after
substitution and permutation, and the final round has a substitution and
key xor but no permutation. -/
def encryptComposition (S : SPN) : Nat → Nat :=
  (fun x => x ^^^ S.key 4) ∘ S.subst ∘ (fun x => x ^^^ S.key 3) ∘ transp ∘
    S.subst ∘ (fun x => x ^^^ S.key 2) ∘ transp ∘ S.subst ∘
    (fun x => x ^^^ S.key 1) ∘ transp ∘ S.subst ∘ (fun x => x ^^^ S.key 0)

/-- Amended claim C3: for every subkey state and plaintext, `encrypt pt`
equals the round composition with the key xor applied after substitution
and permutation, and with no permutation in the final round. -/
theorem encrypt_eq_round_composition (S : SPN) (pt : Nat) :
    S.encrypt pt = encryptComposition S pt := rfl

/-! ## KeyFinder helpers (`KeyFinder/keyfinder.hpp`) -/

/-- Nibble shift amounts `0, 4, 8, 12`, the values taken by the C++ loops
`for (i = 0; i < 16; i += 4)` resp. `for (i = 0; i <= 0xf; i += 4)`. -/
def sboxShifts : List Nat := [0, 4, 8, 12]

/-- Embedding of `KeyFinder::MakeSbox`. -/
def MakeSbox (which x : Nat) : Nat := (x &&& 0xf) <<< ((3 - which) * 4)

/-- Embedding of `KeyFinder::SboxMask`. -/
def SboxMask (which : Nat) : Nat := 0xf <<< ((3 - which) * 4)

/-- Embedding of `KeyFinder::SboxValue`. -/
def SboxValue (which x : Nat) : Nat := (x >>> ((3 - which) * 4)) &&& 0xf

/-- Embedding of `KeyFinder::FindSbox`: indices (0 = leftmost nibble) of
the non-zero nibbles of `x`, in increasing index order. -/
def FindSbox (x : Nat) : List Nat :=
  (List.range 4).filter (fun i => x &&& (0xf <<< ((3 - i) * 4)) != 0)

/-- Embedding of `KeyFinder::SboxCount`: the number of non-zero nibbles. -/
def SboxCount (x : Nat) : Nat :=
  sboxShifts.countP (fun i => x &&& (0xf <<< i) != 0)

/-- Embedding of `KeyFinder::Mask`: widen every non-zero nibble to `0xf`. -/
def Mask (x : Nat) : Nat :=
  sboxShifts.foldl (fun m i => if x &&& (0xf <<< i) != 0 then m ||| (0xf <<< i) else m) 0

/-- Embedding of `SboxState::mask` computed by the constructor loop
(`i` from 3 down to 0, `mask |= 0xf << i*4` for every active bit). -/
def stateMask (state : Nat) : Nat :=
  [3, 2, 1, 0].foldl (fun m i => if state.testBit i then m ||| (0xf <<< (i * 4)) else m) 0

/-- Embedding of `SboxState::aux_masks` (a `std::set` used only through a
universally quantified emptiness test, so list order is irrelevant). -/
def stateAuxMasks (state : Nat) : List Nat :=
  [3, 2, 1, 0].filterMap (fun i => if state.testBit i then some (0xf <<< (i * 4)) else none)

/-- Embedding of `SboxState::active.count()`: the popcount of the low
four bits of the state. -/
def popcount4 (state : Nat) : Nat :=
  (List.range 4).countP (fun i => state.testBit i)

/-! ## Difference distribution tables (`SPN::calculateDiffTable`) -/

/-- One `+= 1` update on a table cell. -/
def ddtUpd (t : Nat → Nat → Nat) (i j : Nat) : Nat → Nat → Nat :=
  fun a b => if a = i ∧ b = j then t a b + 1 else t a b

/-- Embedding of `SPN::calculateDiffTable`: starting from the
zero-initialised pair `(m_diff_table, m_transposed_diff_table)`, for
every `x` and `dx` in `0..15` compute `dy = subst(x) ^ subst(x ^ dx)`
and increment `diff[dx][dy]` and `transposed[dy][dx]`. -/
def calcDiffTables (S : SPN) : (Nat → Nat → Nat) × (Nat → Nat → Nat) :=
  (List.range 16).foldl
    (fun ts x =>
      (List.range 16).foldl
        (fun ts dx =>
          (ddtUpd ts.1 dx (S.subst x ^^^ S.subst (x ^^^ dx)),
            ddtUpd ts.2 (S.subst x ^^^ S.subst (x ^^^ dx)) dx))
        ts)
    (fun _ _ => 0, fun _ _ => 0)

def SPN.diffTable (S : SPN) : Nat → Nat → Nat := (calcDiffTables S).1

def SPN.transposedDiffTable (S : SPN) : Nat → Nat → Nat := (calcDiffTables S).2

/-! ## Histograms

`std::map<uint16_t, size_t>` is embedded as an association list sorted
by strictly increasing key, which is exactly the iteration order of the
C++ map.  Entries are created by `operator[]` immediately followed by
`+=`, so a key is present iff it was incremented at least once. -/

/-- A key-count histogram (`std::map<uint16_t, size_t>`). -/
abbrev Hist := List (Nat × Nat)

/-- Embedding of `hist[k] += v`: insert or add, keeping keys sorted. -/
def histIncr : Hist → Nat → Nat → Hist
  | [], k, v => [(k, v)]
  | (k1, v1) :: t, k, v =>
    if k < k1 then (k, v) :: (k1, v1) :: t
    else if k = k1 then (k1, v1 + v) :: t
    else (k1, v1) :: histIncr t k v

/-- Total count stored for key `k` (0 when absent). -/
def histLookup : Hist → Nat → Nat
  | [], _ => 0
  | p :: t, k => (if p.1 = k then p.2 else 0) + histLookup t k

/-- Embedding of `KeyFinder::findMaxInHist`: two passes over the map,
first taking the maximum count (0 on an empty map), then collecting the
entries that attain it, in map order. -/
def findMaxInHist (h : Hist) : List (Nat × Nat) :=
  let m := h.foldl (fun acc p => if p.2 > acc then p.2 else acc) 0
  h.filter (fun p => p.2 == m)

/-- Lock-protected merge of a worker's private histogram into the shared
one: `hist[p.first] += p.second` for every entry. -/
def histAdd (shared my : Hist) : Hist :=
  my.foldl (fun s p => histIncr s p.1 p.2) shared

/-! ## Candidate subkey sets (`KeyFinder::genSubkeysSet`) -/

/-- Body of the inner loop of `genSubkeysSet` for one value
`subkey = nibble << i`: `for (x : subkeys) subkeys.insert(x | subkey);
subkeys.insert(subkey);`.  The C++ iterates the `std::set` while
inserting into it, but every element inserted during the loop is of the
form `x | subkey` and is fixed by a further `| subkey`, so revisiting
freshly inserted elements adds nothing and the result is this set. -/
def nibbleInsert (S : Finset ℕ) (subkey : Nat) : Finset ℕ :=
  (S ∪ S.image (fun x => x ||| subkey)) ∪ {subkey}

/-- The inner loop of `genSubkeysSet` for one active nibble position:
fold all 16 nibble values into the set. -/
def nibbleFoldFn (i : Nat) (S : Finset ℕ) : Finset ℕ :=
  (List.range 16).foldl (fun S nibble => nibbleInsert S (nibble <<< i)) S

/-- Embedding of `KeyFinder::genSubkeysSet`: for every nibble position
present in `mask`, fold all 16 nibble values into the set. -/
def genSubkeysSet (mask : Nat) : Finset ℕ :=
  sboxShifts.foldl
    (fun S i => if mask &&& (0xf <<< i) = 0 then S else nibbleFoldFn i S)
    ∅

/-- Iteration order of the `std::set` returned by `genSubkeysSet`:
ascending. -/
def genSubkeysList (mask : Nat) : List Nat :=
  (genSubkeysSet mask).sort (· ≤ ·)

/-! ## The key-recovery engine (`KeyFinder/keyfinder.cpp`)

The engine state bundles the `KeyFinder` fields used by the recovery
paths: the cipher, the two codebook arrays (`m_pc1`, indexed by
plaintext, and `m_pc1_forward`, indexed by ciphertext — both total maps
on `0..65535` as the spec's codebook file has exactly 65536 lines), the
accumulated subkey vector `m_subkeys`, the 3/4-S-box heuristic flags and
the worker count.  Verbose logging does not influence any result
modelled here except where noted. -/

structure Engine where
  spn : SPN
  pc1 : Nat → Nat
  pc1Forward : Nat → Nat
  subkeys : Nat → Nat
  compute3 : Bool
  compute4 : Bool
  numThreads : Nat

/-- Embedding of `KeyFinder::genPCPair`: partner array
`pc[i] = main[i ^ input_diff]` over the chosen codebook direction. -/
def genPCPair (E : Engine) (input_diff : Nat) (forward : Bool) : Nat → Nat :=
  fun i => (if forward then E.pc1Forward else E.pc1) (i ^^^ input_diff)

/-- Embedding of `KeyFinder::Path` (named `KFPath` to avoid clashing
with Mathlib's `Path`).  The C++ stores the probability in a
`double`; every probability arising here is a product of at most twelve
exact factors `m / 16` with `m ≤ 16`, whose IEEE-double computation is
exact (all intermediate mantissas are below `2 ^ 53`), so `ℚ` represents
the `double` values and their `==` / `>` comparisons faithfully. -/
structure KFPath where
  input_diff : Nat
  output_diff : Nat
  probability : ℚ

/-- Embedding of `KeyFinder::findPathForRound`.  `round_num` is used by
the source only for logging.  Returns the accumulated round input
difference together with the updated probability. -/
def findPathForRound (E : Engine) (_round_num : Nat) (prev_round_in_diff : Nat)
    (probability : ℚ) (forward : Bool) : Nat × ℚ :=
  let dt := if forward then E.spn.transposedDiffTable else E.spn.diffTable
  let round_out_diff := itransp prev_round_in_diff
  (FindSbox round_out_diff).foldl
    (fun (acc : Nat × ℚ) sbox_index =>
      let round_in_diff := acc.1
      let dy := SboxValue sbox_index round_out_diff
      let max_distrib :=
        (List.range' 1 15).foldl (fun m dx => if dt dx dy > m then dt dx dy else m) 0
      let prob := acc.2 * ((max_distrib : ℚ) / 16)
      let new_dxs := (List.range' 1 15).filter (fun dx => dt dx dy == max_distrib)
      let step :=
        new_dxs.foldl
          (fun (st : Nat × Nat) dx =>
            let pot := round_in_diff ||| MakeSbox sbox_index dx
            let cnt := SboxCount (itransp pot)
            if cnt < st.1 then (cnt, pot) else st)
          (5, round_in_diff)
      (step.2, prob))
    (0, probability)

/-- Embedding of `KeyFinder::genPath`: enumerate terminal differences
`u` whose support meets every auxiliary mask and stays inside the state
mask (iterated in ascending `std::set` order), then walk the rounds from
`from_round - 1` down to `1` with `findPathForRound`. -/
def genPath (E : Engine) (from_round state : Nat) (forward : Bool) : List KFPath :=
  let wanted :=
    ((genSubkeysSet (stateMask state)).filter
      (fun u => (∀ m ∈ stateAuxMasks state, u &&& m ≠ 0) ∧
        u &&& (65535 ^^^ stateMask state) = 0)).sort (· ≤ ·)
  wanted.map (fun u =>
    let r :=
      ((List.range' 1 (from_round - 1)).reverse).foldl
        (fun (acc : Nat × ℚ) r => findPathForRound E r acc.1 acc.2 forward)
        (u, 1)
    ⟨r.1, u, r.2⟩)

/-- Embedding of `KeyFinder::findBestPaths`: keep the paths whose
probability equals the maximum (`0.0` initial best). -/
def findBestPaths (paths : List KFPath) : List KFPath :=
  let best := paths.foldl (fun b p => if p.probability > b then p.probability else b) 0
  paths.filter (fun p => p.probability == best)

/-- Embedding of `KeyFinder::getProbableLastSubkey`. -/
def getProbableLastSubkey (E : Engine) (path : KFPath) : Hist :=
  let pc2 := genPCPair E path.input_diff false
  let output_mask := Mask path.output_diff
  let cands := genSubkeysList output_mask
  (List.range 65536).foldl
    (fun hist i =>
      let ct1 := E.pc1 i
      let ct2 := pc2 i
      if ct1 &&& (65535 ^^^ output_mask) ≠ ct2 &&& (65535 ^^^ output_mask) then hist
      else
        cands.foldl
          (fun hist sk =>
            let u1 := E.spn.isubst (ct1 ^^^ sk)
            let u2 := E.spn.isubst (ct2 ^^^ sk)
            if (u1 ^^^ u2) &&& output_mask = path.output_diff then histIncr hist sk 1
            else hist)
          hist)
    []

/-- Embedding of `KeyFinder::getProbableFirstSubkey` (the "forward"
variant: iterate the inverse codebook and use `subst` with no
permutation in the trial step). -/
def getProbableFirstSubkey (E : Engine) (path : KFPath) : Hist :=
  let pc2 := genPCPair E path.input_diff true
  let output_mask := Mask path.output_diff
  let cands := genSubkeysList output_mask
  (List.range 65536).foldl
    (fun hist i =>
      let ct1 := E.pc1Forward i
      let ct2 := pc2 i
      if ct1 &&& (65535 ^^^ output_mask) ≠ ct2 &&& (65535 ^^^ output_mask) then hist
      else
        cands.foldl
          (fun hist sk =>
            let u1 := E.spn.subst (ct1 ^^^ sk)
            let u2 := E.spn.subst (ct2 ^^^ sk)
            if (u1 ^^^ u2) &&& output_mask = path.output_diff then histIncr hist sk 1
            else hist)
          hist)
    []

/-- Rounds peeled by the middle pass: `for (i = Nr - 1; i > round_num; --i)`,
i.e. `3, 2, ..., round_num + 1` in descending order. -/
def peelRounds (round_num : Nat) : List Nat :=
  (List.range' (round_num + 1) (3 - round_num)).reverse

/-- Per-index body of the worker loop of
`KeyFinder::getProbableMiddleSubkey`.  Both branches of the `forward`
flag are modelled verbatim (the source marks the forward one as broken;
it is unreachable from the recovery paths because `round_num = 0`
dispatches to `getProbableFirstSubkey` instead).  The trial values
`u1`/`u2` are inlined into the comparison. -/
def middleStep (E : Engine) (round_num : Nat) (path : KFPath) (forward : Bool)
    (hist : Hist) (i : Nat) : Hist :=
  let main_pc := if forward then E.pc1Forward else E.pc1
  let pc2 := genPCPair E path.input_diff forward
  let output_mask := Mask path.output_diff
  let cands := genSubkeysList output_mask
  if forward then
    let ct1 := E.spn.subst (main_pc i ^^^ E.subkeys 4)
    let ct2 := E.spn.subst (pc2 i ^^^ E.subkeys 4)
    if ct1 &&& (65535 ^^^ output_mask) ≠ ct2 &&& (65535 ^^^ output_mask) then hist
    else
      cands.foldl
        (fun hist sk =>
          if (E.spn.subst (itransp (ct1 ^^^ sk)) ^^^ E.spn.subst (itransp (ct2 ^^^ sk)))
              &&& output_mask = path.output_diff then histIncr hist sk 1
          else hist)
        hist
  else
    let ct1 := E.spn.isubst (main_pc i ^^^ E.subkeys 4)
    let ct2 := E.spn.isubst (pc2 i ^^^ E.subkeys 4)
    let ct1 := (peelRounds round_num).foldl
      (fun c j => E.spn.isubst (itransp (c ^^^ E.subkeys j))) ct1
    let ct2 := (peelRounds round_num).foldl
      (fun c j => E.spn.isubst (itransp (c ^^^ E.subkeys j))) ct2
    if ct1 &&& (65535 ^^^ output_mask) ≠ ct2 &&& (65535 ^^^ output_mask) then hist
    else
      cands.foldl
        (fun hist sk =>
          if (E.spn.isubst (itransp (ct1 ^^^ sk)) ^^^ E.spn.isubst (itransp (ct2 ^^^ sk)))
              &&& output_mask = path.output_diff then histIncr hist sk 1
          else hist)
        hist

/-- Embedding of the worker body of `KeyFinder::getProbableMiddleSubkey`
on the index chunk `[lo, hi)`: the private histogram `my_hist` a worker
accumulates. -/
def middleChunkHist (E : Engine) (round_num : Nat) (path : KFPath) (forward : Bool)
    (lo hi : Nat) : Hist :=
  (List.range' lo (hi - lo)).foldl (middleStep E round_num path forward) []

/-- Embedding of `KeyFinder::getProbableMiddleSubkey`: split `[0, 65536)`
into `numThreads` chunks of `65536 / numThreads` indices
(`start = end; end += per_thread_work` stepping), let each worker build
its private histogram, and merge them into the shared map under the
lock.  The merge is a pointwise sum, so the arbitrary arrival order of
the workers is modelled by thread-index order. -/
def getProbableMiddleSubkey (E : Engine) (round_num : Nat) (path : KFPath)
    (forward : Bool) : Hist :=
  let per_thread_work := 65536 / E.numThreads
  (List.range E.numThreads).foldl
    (fun hist t =>
      histAdd hist
        (middleChunkHist E round_num path forward (t * per_thread_work)
          (t * per_thread_work + per_thread_work)))
    []

/-- Embedding of `KeyFinder::getProbableSubkey`: round 0 runs forward
with `path_round_num = Nr`; the best paths' histograms are merged by
adding each histogram's maximal entries into `probable_keys`. -/
def getProbableSubkey (E : Engine) (round_num state : Nat) : Hist :=
  let forward := round_num == 0
  let path_round_num := if round_num == 0 then 4 else round_num
  let paths := findBestPaths (genPath E path_round_num state forward)
  paths.foldl
    (fun probable_keys path =>
      let hist : Hist :=
        match round_num with
        | 4 => getProbableLastSubkey E path
        | 3 | 2 | 1 => getProbableMiddleSubkey E path_round_num path forward
        | 0 => getProbableFirstSubkey E path
        | _ => []
      (findMaxInHist hist).foldl (fun pk r => histIncr pk r.1 r.2) probable_keys)
    []

/-- Embedding of the state loop of `KeyFinder::recoverRoundSubkey`: the
`std::map` from S-box state to histogram, keyed by the state value
(ascending, which is also insertion order).  States with one or two
active S-boxes are always computed; three resp. four active S-boxes
depend on the heuristic flags. -/
def stateHistTable (E : Engine) (round_num : Nat) : List (Nat × Hist) :=
  (List.range' 1 15).filterMap
    (fun state =>
      match popcount4 state with
      | 1 | 2 => some (state, getProbableSubkey E round_num state)
      | 3 => if E.compute3 then some (state, getProbableSubkey E round_num state) else none
      | 4 => if E.compute4 then some (state, getProbableSubkey E round_num state) else none
      | _ => none)

/-- Lookup in the state table (`std::map::at`; the keys looked up by the
recovery code, the four singleton states, are always present). -/
def tableLookup (table : List (Nat × Hist)) (state : Nat) : Hist :=
  ((table.find? (fun p => p.1 == state)).map Prod.snd).getD []

/-- Embedding of `KeyFinder::getProbableSboxBits`: start from the
histogram of the singleton state for `sbox_index`, add the masked
argmax entries of every state with at least two active S-boxes that
includes `sbox_index`, and return the argmax entries of the merged
histogram. -/
def getProbableSboxBits (sbox_index : Nat) (table : List (Nat × Hist)) :
    List (Nat × Nat) :=
  let main := tableLookup table (1 <<< (3 - sbox_index))
  let merged :=
    table.foldl
      (fun main p =>
        if popcount4 p.1 < 2 || !(p.1.testBit (3 - sbox_index)) then main
        else
          (findMaxInHist p.2).foldl
            (fun m r => histIncr m (r.1 &&& SboxMask sbox_index) r.2) main)
      main
  findMaxInHist merged

/-- Result of a call to `KeyFinder::recoverRoundSubkey`: either it
returns a subkey, or the process terminates through `exit(code)`. -/
inductive RoundOutcome where
  | ok (subkey : Nat)
  | exited (code : Nat)
deriving DecidableEq

/-- The nibble-merge tail of `KeyFinder::recoverRoundSubkey`: for each
of the four nibble positions take the first entry of
`getProbableSboxBits` and or it into the subkey, or `exit(0xdeadbabe)`
when that list is empty.  This is the only exit the function contains;
there is no check on `round_num` anywhere in it. -/
def mergeNibbles (table : List (Nat × Hist)) : RoundOutcome :=
  match getProbableSboxBits 0 table with
  | [] => .exited 0xdeadbabe
  | b0 :: _ =>
    match getProbableSboxBits 1 table with
    | [] => .exited 0xdeadbabe
    | b1 :: _ =>
      match getProbableSboxBits 2 table with
      | [] => .exited 0xdeadbabe
      | b2 :: _ =>
        match getProbableSboxBits 3 table with
        | [] => .exited 0xdeadbabe
        | b3 :: _ => .ok ((((0 ||| b0.1) ||| b1.1) ||| b2.1) ||| b3.1)

/-- Embedding of `KeyFinder::recoverRoundSubkey`. -/
def recoverRoundSubkey (E : Engine) (round_num : Nat) : RoundOutcome :=
  mergeNibbles (stateHistTable E round_num)

/-- Embedding of `KeyFinder::recoverFirstSubkey` as a state transformer
on the engine: the heuristic flags are cleared on entry when either was
set, `recoverRoundSubkey(0)` runs on that state, and both flags are set
to `true` before the function returns.  The second component is the
engine state at the `return`, which is reached exactly when
`recoverRoundSubkey` did not exit the process (`recoverRoundSubkey` is
`const` and cannot itself change the flags). -/
def recoverFirstSubkey (E : Engine) : RoundOutcome × Engine :=
  let E1 := if E.compute3 || E.compute4 then
    { E with compute3 := false, compute4 := false } else E
  (recoverRoundSubkey E1 0, { E1 with compute3 := true, compute4 := true })

/-- Embedding of `KeyFinder::recoverLastSubkey`, identical to
`recoverFirstSubkey` but recovering round 4. -/
def recoverLastSubkey (E : Engine) : RoundOutcome × Engine :=
  let E1 := if E.compute3 || E.compute4 then
    { E with compute3 := false, compute4 := false } else E
  (recoverRoundSubkey E1 4, { E1 with compute3 := true, compute4 := true })

/-- Result of `KeyFinder::recoverSecondSubkey`: the found key, a process
exit, or the normal `return key1` fall-through (with `key1` still `0`). -/
inductive SecondOutcome where
  | found (k : Nat)
  | exited (code : Nat)
  | returned (k : Nat)
deriving DecidableEq

/-- `subkeys[1] = x` on the copied subkey vector. -/
def updateKey1 (ks : Nat → Nat) (x : Nat) : Nat → Nat :=
  fun i => if i = 1 then x else ks i

/-- Embedding of `KeyFinder::recoverSecondSubkey`: scan `x` from 0 to
0xffff and return the first `x` with
`decryptWithKeys(m_pc1[x], subkeys with [1] = x) == x`.  When no `x`
matches, the source prints and calls `exit(0xbabebabe)` only inside
`if (m_verbose)`; with verbose off it falls through and returns
`key1 = 0` normally. -/
def secondOutcomeOf (r : Option Nat) (verbose : Nat) : SecondOutcome :=
  match r with
  | some x => .found x
  | none => if verbose ≠ 0 then .exited 0xbabebabe else .returned 0

def recoverSecondSubkey (E : Engine) (verbose : Nat) : SecondOutcome :=
  secondOutcomeOf
    ((List.range 65536).find?
      (fun x => E.spn.decryptWithKeys (E.pc1 x) (updateKey1 E.subkeys x) == x))
    verbose

/-! ## CLI orchestration (`KeyFinder/main.cpp`) -/

/-- Outcome of the `--backward` mode dispatch in `main`: after parsing
`numGivenKeys` subkeys the wanted index is `Nr - numGivenKeys`; indices
`<= 1` are rejected with a fatal error before any recovery runs.
Faithful for `numGivenKeys <= 4` (beyond that the C++ `size_t`
subtraction wraps around). -/
inductive BackwardOutcome where
  | configError
  | recovers (round : Nat)
deriving DecidableEq

def backwardMode (numGivenKeys : Nat) : BackwardOutcome :=
  let wanted := 4 - numGivenKeys
  if wanted ≤ 1 then .configError else .recovers wanted

/-- The rounds on which the find-all orchestration in `main` invokes
`recoverRoundSubkey`: round 4 through `recoverLastSubkey`, then the loop
`for (round = Nr - 1; round > 1; --round)`, then round 0 through
`recoverFirstSubkey` (the second subkey is recovered by exhaustive
search, not by the round engine). -/
def findAllRoundCalls : List Nat :=
  4 :: (((List.range' 2 (4 - 2)).reverse) ++ [0])

/-! ## Claim C10: heuristic-flag frame effect of the outer recoveries -/

/-- Claim C10 (frame effect): after `recoverFirstSubkey` or
`recoverLastSubkey` returns, the heuristic flags `m_compute_3_sboxes`
and `m_compute_4_sboxes` are both `true`, whatever their values at
entry — in particular a call made with both flags `false` enables them
for all subsequent round recoveries. -/
theorem recover_outer_subkeys_set_heuristic_flags :
    ∀ E : Engine,
      ((recoverFirstSubkey E).2.compute3 = true ∧
        (recoverFirstSubkey E).2.compute4 = true) ∧
      ((recoverLastSubkey E).2.compute3 = true ∧
        (recoverLastSubkey E).2.compute4 = true) :=
  fun _ => ⟨⟨rfl, rfl⟩, ⟨rfl, rfl⟩⟩

/-! ## Claim C5: no round-1 precondition check in the round engine -/

/-- Shape of the nibble merge: it either assembles a subkey or exits
with the internal-invariant sentinel `0xdeadbabe`; no other outcome —
in particular no configuration-error outcome — exists. -/
theorem mergeNibbles_shape (t : List (Nat × Hist)) :
    (∃ k, mergeNibbles t = RoundOutcome.ok k) ∨
      mergeNibbles t = RoundOutcome.exited 0xdeadbabe := by
  unfold mergeNibbles
  rcases getProbableSboxBits 0 t with _ | ⟨b0, l0⟩
  · exact Or.inr rfl
  rcases getProbableSboxBits 1 t with _ | ⟨b1, l1⟩
  · exact Or.inr rfl
  rcases getProbableSboxBits 2 t with _ | ⟨b2, l2⟩
  · exact Or.inr rfl
  rcases getProbableSboxBits 3 t with _ | ⟨b3, l3⟩
  · exact Or.inr rfl
  exact Or.inl ⟨_, rfl⟩

/-- A concrete engine configuration (S1 S-box and key state, identity
codebook arrays, flags off, one worker). -/
def engineDemo : Engine := ⟨spn1, fun i => i, fun i => i, fun _ => 0, false, false, 1⟩

/-- Counterexample to claim C5 as stated: calling `recoverRoundSubkey`
with `round_num = 1` on the concrete configuration `engineDemo` does not
raise a precondition (configuration) error — it proceeds like any other
round and can only return a subkey or hit the internal empty-histogram
exit `0xdeadbabe` shared by all rounds.  The source has no check on
`round_num` at all (only the comment "If you use this function with
round_num = 1, you deserve what's coming"). -/
theorem recoverRoundSubkey_round1_no_config_error :
    (∃ k, recoverRoundSubkey engineDemo 1 = RoundOutcome.ok k) ∨
      recoverRoundSubkey engineDemo 1 = RoundOutcome.exited 0xdeadbabe :=
  mergeNibbles_shape _

/-- Amended claim C5: `recoverRoundSubkey` itself performs no round-1
precondition check (its only exit is the internal sentinel
`0xdeadbabe`); the configuration error that rejects recovering K1 (and
K0) through the round engine lives in the CLI `--backward` mode, which
fails when the wanted index is `<= 1` (three given keys mean wanted
index 1); and the find-all orchestration never invokes the round engine
on round 1. -/
theorem recoverRoundSubkey_round1_guard_located :
    (∀ E : Engine,
      (∃ k, recoverRoundSubkey E 1 = RoundOutcome.ok k) ∨
        recoverRoundSubkey E 1 = RoundOutcome.exited 0xdeadbabe) ∧
      backwardMode 3 = BackwardOutcome.configError ∧
      1 ∉ findAllRoundCalls :=
  ⟨fun _ => mergeNibbles_shape _, by decide, by decide⟩

/-! ## Claim C4: behaviour of `recoverSecondSubkey` when no key matches -/

/-- An `SPN` state with the identity S-box (`m_SB = m_iSB = id`). -/
def spnId : SPN := ⟨fun v => v, fun v => v, fun _ => 0⟩

/-- Engine state in which the second-subkey search finds no candidate:
identity S-box, all-zero codebook, accumulated subkeys `(1, _, 0, 0, 0)`.
For every candidate `x` the decryption of `m_pc1[x] = 0` evaluates to
`transp x ^ 1`, which differs from `x` on bit 0 because `transp` fixes
bit 0. -/
def engineK1 : Engine :=
  ⟨spnId, fun _ => 0, fun _ => 0, fun i => if i = 0 then 1 else 0, false, false, 1⟩

theorem transp_testBit0 (x : Nat) : (transp x).testBit 0 = x.testBit 0 := by
  simp only [transp, Nat.testBit_xor, Nat.testBit_and, Nat.testBit_shiftLeft,
    Nat.testBit_shiftRight]
  rw [show Nat.testBit 0x8421 0 = true by decide,
    show Nat.testBit 0x1000 (9 + 0) = false by decide,
    show Nat.testBit 0x2100 (6 + 0) = false by decide,
    show Nat.testBit 0x4210 (3 + 0) = false by decide]
  simp

theorem transp_xor_one_ne (x : Nat) : transp x ^^^ 1 ≠ x := by
  intro h
  have hb := congrArg (fun y => y.testBit 0) h
  simp only [Nat.testBit_xor, transp_testBit0] at hb
  rw [show Nat.testBit 1 0 = true by decide] at hb
  cases hx : x.testBit 0 <;> rw [hx] at hb <;> simp at hb

/-- On `engineK1` the candidate check of `recoverSecondSubkey` evaluates
to `transp x ^ 1`. -/
theorem engineK1_candidate_eval (x : Nat) (hx : x < 65536) :
    engineK1.spn.decryptWithKeys (engineK1.pc1 x) (updateKey1 engineK1.subkeys x)
      = transp x ^^^ 1 := by
  have hid : ∀ y, y < 65536 → nibbleMap (fun v => v) y = y := fun y hy => nib_assemble y hy
  show nibbleMap (fun v => v) (itransp ((nibbleMap (fun v => v) (itransp
      ((nibbleMap (fun v => v) (itransp ((nibbleMap (fun v => v) ((0 : Nat) ^^^ 0))
        ^^^ 0))) ^^^ 0))) ^^^ x)) ^^^ 1 = transp x ^^^ 1
  simp only [Nat.xor_self, Nat.xor_zero, Nat.zero_xor, itransp,
    show nibbleMap (fun v => v) 0 = 0 from rfl, show transp 0 = 0 from rfl]
  rw [hid (transp x) (transp_lt x hx)]

/-- Claim C4 (code_bug): on `engineK1` all 65536 candidates fail the
check, yet with verbose off (the default) `recoverSecondSubkey` returns
`key1 = 0` normally instead of exiting — the `exit(0xbabebabe)` sits
inside `if (m_verbose)`, contradicting the header comment
"exits with 0xbabebabe if no key found" and the spec.  With verbose on,
the documented sentinel exit happens. -/
theorem recoverSecondSubkey_no_match_behaviour :
    recoverSecondSubkey engineK1 0 = SecondOutcome.returned 0 ∧
      recoverSecondSubkey engineK1 1 = SecondOutcome.exited 0xbabebabe := by
  have hnone : (List.range 65536).find?
      (fun x => engineK1.spn.decryptWithKeys (engineK1.pc1 x)
        (updateKey1 engineK1.subkeys x) == x) = none := by
    rw [List.find?_eq_none]
    intro x hx
    rw [List.mem_range] at hx
    simp only [beq_iff_eq]
    rw [engineK1_candidate_eval x hx]
    exact transp_xor_one_ne x
  exact ⟨(congrArg (fun o => secondOutcomeOf o 0) hnone).trans rfl,
    (congrArg (fun o => secondOutcomeOf o 1) hnone).trans rfl⟩

/-! ## Claim C7: chunked middle-pass histograms merge to the single-worker one -/

theorem histLookup_incr (h : Hist) (k v j : Nat) :
    histLookup (histIncr h k v) j = histLookup h j + (if k = j then v else 0) := by
  induction h with
  | nil =>
    simp only [histIncr, histLookup]
    omega
  | cons p t ih =>
    obtain ⟨k1, v1⟩ := p
    simp only [histIncr]
    rcases Nat.lt_trichotomy k k1 with hlt | heq | hgt
    · rw [if_pos hlt]
      simp only [histLookup]
      omega
    · rw [if_neg (by omega), if_pos heq]
      subst heq
      simp only [histLookup]
      by_cases hkj : k = j <;> simp [hkj] <;> omega
    · rw [if_neg (by omega), if_neg (by omega)]
      simp only [histLookup, ih]
      omega

theorem histLookup_histAdd (my : Hist) : ∀ (s : Hist) (j : Nat),
    histLookup (histAdd s my) j = histLookup s j + histLookup my j := by
  induction my with
  | nil => intro s j; simp [histAdd, histLookup]
  | cons p t ih =>
    intro s j
    show histLookup (histAdd (histIncr s p.1 p.2) t) j = _
    rw [ih, histLookup_incr]
    simp only [histLookup]
    omega

theorem condIncrFold_shift (cands : List Nat) (P : Nat → Prop) [DecidablePred P] :
    ∀ (h : Hist) (j : Nat),
    histLookup (cands.foldl (fun h sk => if P sk then histIncr h sk 1 else h) h) j
      = histLookup h j +
        histLookup (cands.foldl (fun h sk => if P sk then histIncr h sk 1 else h) []) j := by
  induction cands with
  | nil => intro h j; simp [histLookup]
  | cons sk t ih =>
    intro h j
    simp only [List.foldl_cons]
    rw [ih, ih (if P sk then histIncr [] sk 1 else []) j]
    by_cases hp : P sk
    · rw [if_pos hp, if_pos hp, histLookup_incr, histLookup_incr]
      simp only [histLookup]
      omega
    · rw [if_neg hp, if_neg hp]
      simp only [histLookup]
      omega

/-- The per-index middle-pass contribution is independent of the
accumulated histogram: processing index `i` on top of `h` adds exactly
what processing it on an empty histogram produces. -/
theorem middleStep_shift (E : Engine) (round_num : Nat) (path : KFPath)
    (forward : Bool) (h : Hist) (i j : Nat) :
    histLookup (middleStep E round_num path forward h i) j
      = histLookup h j + histLookup (middleStep E round_num path forward [] i) j := by
  unfold middleStep
  split
  · dsimp only
    split
    · simp [histLookup]
    · rw [condIncrFold_shift]
  · dsimp only
    split
    · simp [histLookup]
    · rw [condIncrFold_shift]

theorem foldl_middleStep_shift (E : Engine) (round_num : Nat) (path : KFPath)
    (forward : Bool) (l : List Nat) : ∀ (h : Hist) (j : Nat),
    histLookup (l.foldl (middleStep E round_num path forward) h) j
      = histLookup h j + histLookup (l.foldl (middleStep E round_num path forward) []) j := by
  induction l with
  | nil => intro h j; simp [histLookup]
  | cons i t ih =>
    intro h j
    simp only [List.foldl_cons]
    rw [ih, ih (middleStep E round_num path forward [] i) j, middleStep_shift]
    omega

/-- Two adjacent chunks contribute exactly what the joined chunk does. -/
theorem middleChunkHist_split (E : Engine) (round_num : Nat) (path : KFPath)
    (forward : Bool) {a b c : Nat} (hab : a ≤ b) (hbc : b ≤ c) (j : Nat) :
    histLookup (middleChunkHist E round_num path forward a b) j +
        histLookup (middleChunkHist E round_num path forward b c) j
      = histLookup (middleChunkHist E round_num path forward a c) j := by
  have hr : List.range' a (b - a) ++ List.range' b (c - b) = List.range' a (c - a) := by
    have h := List.range'_append a (b - a) (c - b) 1
    rw [show a + 1 * (b - a) = b by omega, show (c - b) + (b - a) = c - a by omega] at h
    exact h
  simp only [middleChunkHist]
  rw [← hr, List.foldl_append,
    foldl_middleStep_shift E round_num path forward (List.range' b (c - b))
      ((List.range' a (b - a)).foldl (middleStep E round_num path forward) []) j]

/-- Merging the per-chunk worker histograms over `n` chunks of width `w`
gives the histogram of one pass over `[0, n * w)`. -/
theorem middleChunk_merge (E : Engine) (round_num : Nat) (path : KFPath)
    (forward : Bool) (w : Nat) : ∀ (n : Nat) (j : Nat),
    histLookup
      ((List.range n).foldl
        (fun hist t =>
          histAdd hist (middleChunkHist E round_num path forward (t * w) (t * w + w)))
        []) j
      = histLookup (middleChunkHist E round_num path forward 0 (n * w)) j := by
  intro n
  induction n with
  | zero => intro j; simp [middleChunkHist, histLookup]
  | succ n ih =>
    intro j
    rw [List.range_succ, List.foldl_append]
    show histLookup (histAdd _ (middleChunkHist E round_num path forward (n * w) (n * w + w))) j = _
    rw [histLookup_histAdd, ih,
      middleChunkHist_split E round_num path forward (Nat.zero_le (n * w))
        (Nat.le_add_right (n * w) w), show n * w + w = (n + 1) * w by ring]

/-- Claim C7 (parallel determinism of the middle pass): for a fixed path
and fixed already-recovered outer subkeys, partitioning `[0, 65536)`
into `N` contiguous chunks for `N ∈ {1, 2, 4, 8}`, computing a
per-chunk worker histogram and summing the per-chunk counts yields the
histogram a single worker computes over the whole range: the merged
histogram of `getProbableMiddleSubkey` with `N` workers agrees pointwise
with the one-worker run. -/
theorem middle_pass_chunks_eq_single_worker (E : Engine) (round_num : Nat)
    (path : KFPath) (forward : Bool) (n : Nat)
    (hn : n ∈ ([1, 2, 4, 8] : List Nat)) (sk : Nat) :
    histLookup (getProbableMiddleSubkey { E with numThreads := n } round_num path forward) sk
      = histLookup (getProbableMiddleSubkey { E with numThreads := 1 } round_num path forward) sk := by
  have main : ∀ m : Nat,
      histLookup (getProbableMiddleSubkey { E with numThreads := m } round_num path forward) sk
        = histLookup (middleChunkHist E round_num path forward 0 (m * (65536 / m))) sk := by
    intro m
    show histLookup
      ((List.range m).foldl
        (fun hist t =>
          histAdd hist
            (middleChunkHist E round_num path forward (t * (65536 / m))
              (t * (65536 / m) + 65536 / m)))
        []) sk = _
    exact middleChunk_merge E round_num path forward (65536 / m) m sk
  rw [main n, main 1]
  have hv : n * (65536 / n) = 65536 := by fin_cases hn <;> norm_num
  rw [hv]

/-- Witness for claim C7 at a concrete engine, path and worker count 4. -/
theorem middle_pass_chunks_eq_single_worker_witness :
    histLookup (getProbableMiddleSubkey { engineDemo with numThreads := 4 } 2 ⟨1, 1, 1⟩ false) 0
      = histLookup (getProbableMiddleSubkey { engineDemo with numThreads := 1 } 2 ⟨1, 1, 1⟩ false) 0 :=
  middle_pass_chunks_eq_single_worker engineDemo 2 ⟨1, 1, 1⟩ false 4 (by decide) 0

/-! ## Claim C8: the difference distribution table counts transitions -/

/-- On single nibbles, `subst` is the S-box entry xored with a fixed
high part coming from `SB[0]` in nibbles 1..3. -/
theorem nibbleMap_small (f : Nat → Nat) {y : Nat} (hy : y < 16) :
    nibbleMap f y = ((f y ^^^ (f 0 <<< 4)) ^^^ (f 0 <<< 8)) ^^^ (f 0 <<< 12) := by
  unfold nibbleMap
  rw [and15_self hy,
    shiftRight_eq_zero (show y < 2 ^ 4 by norm_num; omega),
    shiftRight_eq_zero (show y < 2 ^ 8 by norm_num; omega),
    shiftRight_eq_zero (show y < 2 ^ 12 by norm_num; omega)]
  simp

theorem xor_xor_cancel_right (a b c : Nat) : (a ^^^ c) ^^^ (b ^^^ c) = a ^^^ b := by
  rw [Nat.xor_assoc, xor_left_comm c b c, Nat.xor_self, Nat.xor_zero]

/-- The xor of two single-nibble substitutions reduces to the xor of
the S-box values: the shared high part cancels. -/
theorem subst_xor_nibble (S : SPN) {x z : Nat} (hx : x < 16) (hz : z < 16) :
    S.subst x ^^^ S.subst z = S.SB x ^^^ S.SB z := by
  show nibbleMap S.SB x ^^^ nibbleMap S.SB z = _
  rw [nibbleMap_small S.SB hx, nibbleMap_small S.SB hz,
    xor_xor_cancel_right, xor_xor_cancel_right, xor_xor_cancel_right]

/-- Inner `dx` loop of `calculateDiffTable`: effect on the first table. -/
theorem ddt_inner_fst (g : Nat → Nat) (l : List Nat) :
    ∀ (ts : (Nat → Nat → Nat) × (Nat → Nat → Nat)) (a b : Nat),
    ((l.foldl (fun ts dx => (ddtUpd ts.1 dx (g dx), ddtUpd ts.2 (g dx) dx)) ts).1) a b
      = ts.1 a b + (if g a = b then l.count a else 0) := by
  induction l with
  | nil =>
    intro ts a b
    simp [List.count_nil]
  | cons dx l ih =>
    intro ts a b
    simp only [List.foldl_cons]
    rw [ih]
    simp only [ddtUpd, List.count_cons]
    by_cases h1 : a = dx
    · subst h1
      by_cases h2 : g a = b
      · subst h2
        simp
        omega
      · rw [if_neg (by tauto), if_neg h2, if_neg h2]
    · rw [if_neg (by tauto)]
      have hba : (dx == a) = false := beq_eq_false_iff_ne.mpr (Ne.symm h1)
      rw [hba]
      simp

/-- Outer `x` loop of `calculateDiffTable`: the first table counts, per
cell `(a, b)`, the processed `x` with `subst x ^ subst (x ^ a) = b`. -/
theorem ddt_outer_fst (S : SPN) (lx : List Nat) :
    ∀ (ts : (Nat → Nat → Nat) × (Nat → Nat → Nat)) (a b : Nat), a < 16 →
    ((lx.foldl
        (fun ts x =>
          (List.range 16).foldl
            (fun ts dx =>
              (ddtUpd ts.1 dx (S.subst x ^^^ S.subst (x ^^^ dx)),
                ddtUpd ts.2 (S.subst x ^^^ S.subst (x ^^^ dx)) dx))
            ts)
        ts).1) a b
      = ts.1 a b + lx.countP (fun x => S.subst x ^^^ S.subst (x ^^^ a) == b) := by
  induction lx with
  | nil =>
    intro ts a b ha
    simp
  | cons x lx ih =>
    intro ts a b ha
    simp only [List.foldl_cons]
    rw [ih _ a b ha,
      ddt_inner_fst (fun dx => S.subst x ^^^ S.subst (x ^^^ dx)) (List.range 16) ts a b]
    have hc : (List.range 16).count a = 1 :=
      List.count_eq_one_of_mem (List.nodup_range 16) (List.mem_range.mpr ha)
    rw [hc, List.countP_cons]
    by_cases h2 : S.subst x ^^^ S.subst (x ^^^ a) = b
    · rw [if_pos h2, if_pos (by simpa using h2)]
      omega
    · rw [if_neg h2, if_neg (by simpa using h2)]
      omega

/-- The populated difference table, as a count over `x ∈ 0..15`. -/
theorem diffTable_eq_countP (S : SPN) (a b : Nat) (ha : a < 16) :
    S.diffTable a b
      = (List.range 16).countP (fun x => S.subst x ^^^ S.subst (x ^^^ a) == b) := by
  show ((List.range 16).foldl _ (fun _ _ => 0, fun _ _ => 0)).1 a b = _
  rw [ddt_outer_fst S (List.range 16) (fun _ _ => 0, fun _ _ => 0) a b ha]
  simp

theorem sum_countP_fibers (f : Nat → Nat) (l : List Nat) (hf : ∀ x ∈ l, f x < 16) :
    ∑ dy ∈ Finset.range 16, l.countP (fun x => f x == dy) = l.length := by
  induction l with
  | nil => simp
  | cons x t ih =>
    have hx : f x < 16 := hf x (by simp)
    have ht : ∀ y ∈ t, f y < 16 := fun y hy => hf y (by simp [hy])
    simp only [List.countP_cons]
    rw [Finset.sum_add_distrib, ih ht]
    have : (∑ dy ∈ Finset.range 16, if (f x == dy) = true then 1 else 0) = 1 := by
      simp only [beq_iff_eq]
      rw [Finset.sum_ite_eq (Finset.range 16) (f x) (fun _ => 1)]
      simp [Finset.mem_range.mpr hx]
    rw [this]
    simp [Nat.add_comm]

/-- Claim C8: after `calculateDiffTable` runs on an S-box mapping
nibbles to nibbles, `DiffTable[dx][dy]` is the number of `x` in `0..15`
with `SB(x) ^ SB(x ^ dx) = dy`; consequently every row sums to 16 and
row 0 is `(16, 0, ..., 0)`. -/
theorem diffTable_counts (S : SPN) (hSB : ∀ v < 16, S.SB v < 16) :
    (∀ dx < 16, ∀ dy : Nat,
      S.diffTable dx dy
        = (List.range 16).countP (fun x => S.SB x ^^^ S.SB (x ^^^ dx) == dy)) ∧
    (∀ dx < 16, ∑ dy ∈ Finset.range 16, S.diffTable dx dy = 16) ∧
    (S.diffTable 0 0 = 16 ∧ ∀ dy < 16, dy ≠ 0 → S.diffTable 0 dy = 0) := by
  have hsb : ∀ dx < 16, ∀ dy : Nat,
      S.diffTable dx dy
        = (List.range 16).countP (fun x => S.SB x ^^^ S.SB (x ^^^ dx) == dy) := by
    intro dx hdx dy
    rw [diffTable_eq_countP S dx dy hdx]
    apply List.countP_congr
    intro x hx
    rw [List.mem_range] at hx
    have hxd : x ^^^ dx < 16 := xor_lt_16 hx hdx
    rw [subst_xor_nibble S hx hxd]
  refine ⟨hsb, ?_, ?_, ?_⟩
  · intro dx hdx
    have hrw : ∀ dy : Nat, S.diffTable dx dy
        = (List.range 16).countP (fun x => S.SB x ^^^ S.SB (x ^^^ dx) == dy) :=
      hsb dx hdx
    calc ∑ dy ∈ Finset.range 16, S.diffTable dx dy
        = ∑ dy ∈ Finset.range 16,
            (List.range 16).countP (fun x => S.SB x ^^^ S.SB (x ^^^ dx) == dy) := by
          exact Finset.sum_congr rfl (fun dy _ => hrw dy)
      _ = (List.range 16).length := by
          apply sum_countP_fibers
          intro x hx
          rw [List.mem_range] at hx
          have hxd : x ^^^ dx < 16 := xor_lt_16 hx hdx
          exact xor_lt_16 (hSB x hx) (hSB (x ^^^ dx) hxd)
      _ = 16 := by simp
  · rw [hsb 0 (by norm_num) 0]
    have : ∀ x ∈ List.range 16, (S.SB x ^^^ S.SB (x ^^^ 0) == 0) = true := by
      intro x hx
      simp [Nat.xor_zero, Nat.xor_self]
    rw [List.countP_eq_length.mpr this]
    simp
  · intro dy hdy hne
    rw [hsb 0 (by norm_num) dy]
    have : ∀ x ∈ List.range 16, ¬ ((S.SB x ^^^ S.SB (x ^^^ 0) == dy) = true) := by
      intro x hx
      simp [Nat.xor_zero, Nat.xor_self]
      omega
    rw [List.countP_eq_zero.mpr this]

/-- Witness for claim C8 at the S1 S-box: the count identity for the
cell `(1, 2)`, the sum of row 3, and row 0. -/
theorem diffTable_counts_witness :
    spn1.diffTable 1 2
      = (List.range 16).countP (fun x => spn1.SB x ^^^ spn1.SB (x ^^^ 1) == 2) ∧
    (∑ dy ∈ Finset.range 16, spn1.diffTable 3 dy = 16) ∧
    spn1.diffTable 0 0 = 16 :=
  ⟨(diffTable_counts spn1 (by decide)).1 1 (by norm_num) 2,
    (diffTable_counts spn1 (by decide)).2.1 3 (by norm_num),
    (diffTable_counts spn1 (by decide)).2.2.1⟩

/-! ## Claim C6: structure of `genSubkeysSet`

The fold of `genSubkeysSet` over one active nibble position is shown to
build the product of the previous set with the 16 nibble values placed
at that position; iterating over the active positions gives a product
set of cardinality `16 ^ k`. -/

theorem or_shiftLeft (a b s : Nat) : (a <<< s) ||| (b <<< s) = (a ||| b) <<< s := by
  apply Nat.eq_of_testBit_eq
  intro j
  simp only [Nat.testBit_shiftLeft, Nat.testBit_or]
  cases decide (j ≥ s) <;> simp

theorem or_lt_16 {a b : Nat} (ha : a < 16) (hb : b < 16) : a ||| b < 16 := by
  have h := @Nat.or_lt_two_pow a b 4 (by norm_num; omega) (by norm_num; omega)
  norm_num at h
  exact h

theorem or_and_mask (x y m : Nat) : (x ||| y) &&& m = (x &&& m) ||| (y &&& m) := by
  rw [Nat.and_comm, Nat.and_or_distrib_left, Nat.and_comm m x, Nat.and_comm m y]

theorem shift_self_mask {n : Nat} (hn : n < 16) (i : Nat) :
    (n <<< i) &&& (0xf <<< i) = n <<< i := by
  rw [and_shiftLeft]
  rw [show (n &&& 0xf) = n from and15_self hn]

theorem or_eq_xor_of_disjoint {x v : Nat} (h : x &&& v = 0) : x ||| v = x ^^^ v := by
  apply Nat.eq_of_testBit_eq
  intro j
  have hj := congrArg (fun z => z.testBit j) h
  simp only [Nat.testBit_and, Nat.zero_testBit] at hj
  simp only [Nat.testBit_or, Nat.testBit_xor]
  cases hx : x.testBit j <;> cases hv : v.testBit j <;> simp_all

theorem and_clean_of_sub {x v m : Nat} (hx : x &&& m = 0) (hv : v &&& m = v) :
    x &&& v = 0 := by
  calc x &&& v = x &&& (m &&& v) := by rw [Nat.and_comm m v, hv]
    _ = (x &&& m) &&& v := by rw [Nat.and_assoc]
    _ = 0 := by rw [hx, Nat.zero_and]

/-- Distinct nibble positions have disjoint masks. -/
theorem nib_shift_disjoint : ∀ i ∈ sboxShifts, ∀ j ∈ sboxShifts, i ≠ j →
    ∀ n : Fin 16, (n.val <<< i) &&& (0xf <<< j) = 0 := by decide

/-- The positions whose nibble is present in the mask, in loop order. -/
def activeShifts (mask : Nat) : List Nat :=
  sboxShifts.filter (fun i => mask &&& (0xf <<< i) != 0)

/-- The product-set semantics of one active-position step. -/
def prodStep (i : Nat) (T : Finset ℕ) : Finset ℕ :=
  (T ×ˢ Finset.range 16).image (fun p => p.1 ||| (p.2 <<< i))

theorem prodStep_zero_mem (i : Nat) {T : Finset ℕ} (h0 : 0 ∈ T) :
    0 ∈ prodStep i T := by
  apply Finset.mem_image.mpr
  refine ⟨(0, 0), Finset.mem_product.mpr ⟨h0, Finset.mem_range.mpr (by norm_num)⟩, ?_⟩
  simp [Nat.zero_shiftLeft]

theorem nibbleInsert_mono (S : Finset ℕ) (v : Nat) : S ⊆ nibbleInsert S v :=
  subset_trans Finset.subset_union_left Finset.subset_union_left

theorem nibbleFold_mono (i : Nat) : ∀ (l : List Nat) (S : Finset ℕ),
    S ⊆ l.foldl (fun S n => nibbleInsert S (n <<< i)) S := by
  intro l
  induction l with
  | nil => intro S; exact subset_refl S
  | cons m t ih =>
    intro S
    exact subset_trans (nibbleInsert_mono S (m <<< i)) (ih (nibbleInsert S (m <<< i)))

theorem nibbleInsert_mem_or (i : Nat) (S : Finset ℕ) {x : Nat} (n : Nat)
    (hx : x ∈ S ∨ x = 0) : x ||| (n <<< i) ∈ nibbleInsert S (n <<< i) := by
  rcases hx with hx | rfl
  · exact Finset.mem_union_left _
      (Finset.mem_union_right _ (Finset.mem_image.mpr ⟨x, hx, rfl⟩))
  · rw [Nat.zero_or]
    exact Finset.mem_union_right _ (Finset.mem_singleton.mpr rfl)

theorem nibbleFold_mem (i x n : Nat) : ∀ (l : List Nat) (S : Finset ℕ),
    n ∈ l → (x ∈ S ∨ x = 0) →
    x ||| (n <<< i) ∈ l.foldl (fun S m => nibbleInsert S (m <<< i)) S := by
  intro l
  induction l with
  | nil => intro S hn; exact absurd hn (List.not_mem_nil n)
  | cons m t ih =>
    intro S hn hx
    simp only [List.foldl_cons]
    rcases List.mem_cons.mp hn with rfl | hnt
    · exact nibbleFold_mono i t _ (nibbleInsert_mem_or i S n hx)
    · apply ih _ hnt
      rcases hx with hx | rfl
      · exact Or.inl (nibbleInsert_mono S (m <<< i) hx)
      · exact Or.inr rfl

theorem nibbleInsert_closed (i : Nat) {T : Finset ℕ} (h0 : 0 ∈ T) {S' : Finset ℕ}
    (hS : S' ⊆ prodStep i T) {n : Nat} (hn : n < 16) :
    nibbleInsert S' (n <<< i) ⊆ prodStep i T := by
  intro y hy
  rcases Finset.mem_union.mp hy with hy | hy
  · rcases Finset.mem_union.mp hy with hy | hy
    · exact hS hy
    · obtain ⟨z, hz, rfl⟩ := Finset.mem_image.mp hy
      obtain ⟨p, hp, rfl⟩ := Finset.mem_image.mp (hS hz)
      obtain ⟨hp1, hp2⟩ := Finset.mem_product.mp hp
      apply Finset.mem_image.mpr
      refine ⟨(p.1, p.2 ||| n), Finset.mem_product.mpr
        ⟨hp1, Finset.mem_range.mpr (or_lt_16 (Finset.mem_range.mp hp2) hn)⟩, ?_⟩
      show p.1 ||| ((p.2 ||| n) <<< i) = (p.1 ||| (p.2 <<< i)) ||| (n <<< i)
      rw [Nat.or_assoc, or_shiftLeft]
  · rw [Finset.mem_singleton.mp hy]
    apply Finset.mem_image.mpr
    refine ⟨(0, n), Finset.mem_product.mpr ⟨h0, Finset.mem_range.mpr hn⟩, ?_⟩
    simp

theorem nibbleFold_subset (i : Nat) {T : Finset ℕ} (h0 : 0 ∈ T) :
    ∀ (l : List Nat), (∀ n ∈ l, n < 16) → ∀ (S₀ : Finset ℕ), S₀ ⊆ prodStep i T →
    l.foldl (fun S n => nibbleInsert S (n <<< i)) S₀ ⊆ prodStep i T := by
  intro l
  induction l with
  | nil => intro _ S₀ hS; exact hS
  | cons m t ih =>
    intro hl S₀ hS
    simp only [List.foldl_cons]
    exact ih (fun n hn => hl n (List.mem_cons_of_mem m hn)) _
      (nibbleInsert_closed i h0 hS (hl m (List.mem_cons_self m t)))

/-- The inner fold of `genSubkeysSet` over one position builds exactly
the or-product of the previous set (with 0 adjoined) and the 16 nibble
values at that position. -/
theorem nibbleFoldFn_eq (i : Nat) (S : Finset ℕ) :
    nibbleFoldFn i S = prodStep i (S ∪ {0}) := by
  apply Finset.Subset.antisymm
  · apply nibbleFold_subset i (Finset.mem_union_right S (Finset.mem_singleton_self 0))
      (List.range 16) (fun n hn => List.mem_range.mp hn) S
    intro z hz
    apply Finset.mem_image.mpr
    refine ⟨(z, 0), Finset.mem_product.mpr
      ⟨Finset.mem_union_left _ hz, Finset.mem_range.mpr (by norm_num)⟩, ?_⟩
    simp [Nat.zero_shiftLeft]
  · intro y hy
    obtain ⟨p, hp, rfl⟩ := Finset.mem_image.mp hy
    obtain ⟨hp1, hp2⟩ := Finset.mem_product.mp hp
    exact nibbleFold_mem i p.1 p.2 (List.range 16) S
      (List.mem_range.mpr (Finset.mem_range.mp hp2))
      (by rcases Finset.mem_union.mp hp1 with h | h
          · exact Or.inl h
          · exact Or.inr (Finset.mem_singleton.mp h))

/-- Folding the skip-inactive loop equals folding over the active
positions only. -/
theorem genFold_skip (mask : Nat) : ∀ (l : List Nat) (S : Finset ℕ),
    l.foldl (fun S i => if mask &&& (0xf <<< i) = 0 then S else nibbleFoldFn i S) S
      = (l.filter (fun i => mask &&& (0xf <<< i) != 0)).foldl
          (fun S i => nibbleFoldFn i S) S := by
  intro l
  induction l with
  | nil => intro S; rfl
  | cons i t ih =>
    intro S
    rw [List.filter_cons]
    by_cases h : mask &&& (0xf <<< i) = 0
    · rw [if_neg (by simp [h])]
      simp only [List.foldl_cons, if_pos h]
      exact ih S
    · rw [if_pos (by simp [h])]
      simp only [List.foldl_cons, if_neg h]
      exact ih (nibbleFoldFn i S)

/-- Product-set over a list of positions, starting from `{0}`. -/
def prodList (l : List Nat) : Finset ℕ :=
  l.foldl (fun T i => prodStep i T) {0}

theorem genFold_eq_prodFold : ∀ (l : List Nat) (S : Finset ℕ), 0 ∈ S →
    l.foldl (fun S i => nibbleFoldFn i S) S = l.foldl (fun T i => prodStep i T) S := by
  intro l
  induction l with
  | nil => intro S _; rfl
  | cons i t ih =>
    intro S h0
    simp only [List.foldl_cons]
    rw [nibbleFoldFn_eq, Finset.union_eq_left.mpr (Finset.singleton_subset_iff.mpr h0)]
    exact ih (prodStep i S) (prodStep_zero_mem i h0)

/-- `genSubkeysSet` is the product set over the active positions
(provided at least one position is active; for `mask = 0` the fold
starts and ends empty). -/
theorem genSubkeysSet_eq_prodList (mask : Nat) (hne : activeShifts mask ≠ []) :
    genSubkeysSet mask = prodList (activeShifts mask) := by
  show sboxShifts.foldl _ ∅ = _
  rw [genFold_skip mask sboxShifts ∅]
  show (activeShifts mask).foldl _ ∅ = _
  rcases hl : activeShifts mask with _ | ⟨i, rest⟩
  · exact absurd hl hne
  · simp only [List.foldl_cons, prodList]
    rw [nibbleFoldFn_eq, Finset.empty_union]
    exact genFold_eq_prodFold rest (prodStep i {0})
      (prodStep_zero_mem i (Finset.mem_singleton_self 0))

theorem prodFold_zero_mem : ∀ (l : List Nat) (T : Finset ℕ), 0 ∈ T →
    0 ∈ l.foldl (fun T i => prodStep i T) T := by
  intro l
  induction l with
  | nil => intro T h0; exact h0
  | cons i t ih =>
    intro T h0
    exact ih (prodStep i T) (prodStep_zero_mem i h0)

/-- Cardinality of one product step, when the set is clean at the new
position. -/
theorem prodStep_card (i : Nat) (T : Finset ℕ)
    (hT : ∀ x ∈ T, x &&& (0xf <<< i) = 0) :
    (prodStep i T).card = T.card * 16 := by
  rw [prodStep, Finset.card_image_of_injOn, Finset.card_product, Finset.card_range]
  intro p hp q hq heq
  simp only [Finset.coe_product, Set.mem_prod, Finset.mem_coe, Finset.mem_range] at hp hq
  obtain ⟨hp1, hp2⟩ := hp
  obtain ⟨hq1, hq2⟩ := hq
  simp only at heq
  have hpv := shift_self_mask hp2 i
  have hqv := shift_self_mask hq2 i
  have hp0 : p.1 &&& (p.2 <<< i) = 0 := and_clean_of_sub (hT p.1 hp1) hpv
  have hq0 : q.1 &&& (q.2 <<< i) = 0 := and_clean_of_sub (hT q.1 hq1) hqv
  have hmask := congrArg (fun z => z &&& (0xf <<< i)) heq
  simp only at hmask
  rw [or_and_mask, or_and_mask, hT p.1 hp1, hT q.1 hq1, hpv, hqv,
    Nat.zero_or, Nat.zero_or] at hmask
  have hn : p.2 = q.2 := by
    rw [Nat.shiftLeft_eq, Nat.shiftLeft_eq] at hmask
    exact Nat.eq_of_mul_eq_mul_right (Nat.two_pow_pos i) hmask
  have hx : p.1 = q.1 := by
    have e1 : p.1 ^^^ (p.2 <<< i) = q.1 ^^^ (q.2 <<< i) := by
      rw [← or_eq_xor_of_disjoint hp0, ← or_eq_xor_of_disjoint hq0]
      exact heq
    have e2 := congrArg (fun z => z ^^^ (p.2 <<< i)) e1
    simp only at e2
    rw [xor_cancel_r, hn] at e2
    rw [e2, xor_cancel_r]
  exact Prod.ext hx hn

theorem prodFold_card : ∀ (l : List Nat) (T : Finset ℕ), l.Nodup →
    (∀ i ∈ l, i ∈ sboxShifts) →
    (∀ x ∈ T, ∀ i ∈ l, x &&& (0xf <<< i) = 0) →
    (l.foldl (fun T i => prodStep i T) T).card = T.card * 16 ^ l.length := by
  intro l
  induction l with
  | nil => intro T _ _ _; simp
  | cons i t ih =>
    intro T hnd hsh hcl
    obtain ⟨hit, hndt⟩ := List.nodup_cons.mp hnd
    simp only [List.foldl_cons]
    rw [ih (prodStep i T) hndt (fun j hj => hsh j (List.mem_cons_of_mem i hj)) ?_,
      prodStep_card i T (fun x hx => hcl x hx i (List.mem_cons_self i t))]
    · rw [List.length_cons, pow_succ]
      ring
    · intro x hx j hj
      obtain ⟨p, hp, rfl⟩ := Finset.mem_image.mp hx
      obtain ⟨hp1, hp2⟩ := Finset.mem_product.mp hp
      rw [or_and_mask, hcl p.1 hp1 j (List.mem_cons_of_mem i hj)]
      have hij : i ≠ j := fun h => hit (h ▸ hj)
      rw [nib_shift_disjoint i (hsh i (List.mem_cons_self i t)) j
        (hsh j (List.mem_cons_of_mem i hj)) hij ⟨p.2, Finset.mem_range.mp hp2⟩]
      simp

theorem prodFold_support (c : Nat) : ∀ (l : List Nat) (T : Finset ℕ),
    (∀ i ∈ l, ∀ n : Fin 16, (n.val <<< i) &&& c = 0) →
    (∀ x ∈ T, x &&& c = 0) →
    ∀ x ∈ l.foldl (fun T i => prodStep i T) T, x &&& c = 0 := by
  intro l
  induction l with
  | nil => intro T _ hT x hx; exact hT x hx
  | cons i t ih =>
    intro T hl hT
    apply ih (prodStep i T) (fun j hj => hl j (List.mem_cons_of_mem i hj))
    intro x hx
    obtain ⟨p, hp, rfl⟩ := Finset.mem_image.mp hx
    obtain ⟨hp1, hp2⟩ := Finset.mem_product.mp hp
    rw [or_and_mask, hT p.1 hp1,
      hl i (List.mem_cons_self i t) ⟨p.2, Finset.mem_range.mp hp2⟩]
    simp

/-- A nibble-mask in the sense of the spec: a 16-bit value in which
every nibble is either `0x0` or `0xf`. -/
def isNibbleMask (m : Nat) : Prop :=
  m < 65536 ∧ ∀ i ∈ sboxShifts, m &&& (0xf <<< i) = 0 ∨ m &&& (0xf <<< i) = 0xf <<< i

instance (m : Nat) : Decidable (isNibbleMask m) := by
  unfold isNibbleMask
  infer_instance

/-- A 16-bit value with all four nibbles clear is zero. -/
theorem eq_zero_of_all_nibbles_clear {m : Nat} (hm16 : m < 65536)
    (h : ∀ i ∈ sboxShifts, m &&& (0xf <<< i) = 0) : m = 0 := by
  have h0 := h 0 (by simp [sboxShifts])
  have h4 := h 4 (by simp [sboxShifts])
  have h8 := h 8 (by simp [sboxShifts])
  have h12 := h 12 (by simp [sboxShifts])
  have e : m &&& 65535 = m := by
    rw [show (65535 : Nat) = 2 ^ 16 - 1 by norm_num, Nat.and_pow_two_sub_one_eq_mod]
    exact Nat.mod_eq_of_lt hm16
  have d : (65535 : Nat) = ((0xf <<< 0 ||| 0xf <<< 4) ||| 0xf <<< 8) ||| 0xf <<< 12 := by
    decide
  calc m = m &&& 65535 := e.symm
    _ = ((m &&& (0xf <<< 0) ||| m &&& (0xf <<< 4)) ||| m &&& (0xf <<< 8)) |||
          m &&& (0xf <<< 12) := by
        rw [d, Nat.and_or_distrib_left, Nat.and_or_distrib_left, Nat.and_or_distrib_left]
    _ = 0 := by rw [h0, h4, h8, h12]; simp

theorem activeShifts_ne_nil {m : Nat} (hm16 : m < 65536) (hm0 : m ≠ 0) :
    activeShifts m ≠ [] := by
  intro hnil
  apply hm0
  apply eq_zero_of_all_nibbles_clear hm16
  intro i hi
  have := List.filter_eq_nil_iff.mp hnil i hi
  simp only [bne_iff_ne, ne_eq, not_not] at this
  exact this

/-- A value confined to an active nibble of the mask vanishes on the
16-bit complement of the mask. -/
theorem active_shift_compl {m : Nat} (hm16 : m < 65536) {i : Nat} (hi : i ≤ 12)
    (hact : m &&& (0xf <<< i) = 0xf <<< i) {n : Nat} (hn : n < 16) :
    (n <<< i) &&& (65535 ^^^ m) = 0 := by
  apply Nat.eq_of_testBit_eq
  intro j
  simp only [Nat.testBit_and, Nat.testBit_xor, Nat.testBit_shiftLeft, Nat.zero_testBit]
  rcases Nat.lt_or_ge j i with hji | hji
  · rw [decide_eq_false (show ¬ j ≥ i by omega)]
    simp
  · cases htb : n.testBit (j - i) with
    | false => simp [decide_eq_true hji, htb]
    | true =>
      have hj4 : j - i < 4 := by
        by_contra hge
        have h1 : n ≥ 2 ^ (j - i) := Nat.testBit_implies_ge htb
        have h2 : (16 : Nat) ≤ 2 ^ (j - i) :=
          calc (16 : Nat) = 2 ^ 4 := by norm_num
            _ ≤ 2 ^ (j - i) := Nat.pow_le_pow_right (by norm_num) (by omega)
        omega
      have hj16 : j < 16 := by omega
      have hmj : m.testBit j = true := by
        have hc := congrArg (fun z => z.testBit j) hact
        simp only [Nat.testBit_and, Nat.testBit_shiftLeft] at hc
        rw [testBit_15 (j - i), decide_eq_true hji, decide_eq_true hj4] at hc
        simpa using hc
      rw [testBit_65535 j, decide_eq_true hj16, hmj]
      simp

/-- Counterexample to claim C6 as stated: the all-zero nibble-mask is a
nibble-mask, yet `genSubkeysSet 0` is empty — it does not contain 0 and
its cardinality is `0`, not `16 ^ 0 = 1`. -/
theorem genSubkeysSet_zero_mask_counterexample :
    isNibbleMask 0 ∧ ¬ (0 ∈ genSubkeysSet 0) ∧
      (genSubkeysSet 0).card ≠ 16 ^ SboxCount 0 := by
  refine ⟨by decide, ?_, ?_⟩ <;> decide

/-- Amended claim C6: for any nibble-mask `M` with at least one active
nibble, `genSubkeysSet M` contains 0, has cardinality `16 ^ k` where `k`
is the number of active nibbles of `M`, and every element `x` satisfies
`x & ~M = 0` (with `~M` the 16-bit complement `65535 ^ M`). -/
theorem genSubkeysSet_spec (m : Nat) (hm : isNibbleMask m) (hm0 : m ≠ 0) :
    0 ∈ genSubkeysSet m ∧
    (genSubkeysSet m).card = 16 ^ SboxCount m ∧
    ∀ x ∈ genSubkeysSet m, x &&& (65535 ^^^ m) = 0 := by
  obtain ⟨hm16, hnib⟩ := hm
  have hne := activeShifts_ne_nil hm16 hm0
  rw [genSubkeysSet_eq_prodList m hne]
  have hsub : ∀ i ∈ activeShifts m, i ∈ sboxShifts := fun i hi =>
    List.mem_of_mem_filter hi
  refine ⟨?_, ?_, ?_⟩
  · exact prodFold_zero_mem (activeShifts m) {0} (Finset.mem_singleton_self 0)
  · rw [prodList, prodFold_card (activeShifts m) {0}
      (List.Nodup.filter _ (by decide)) hsub ?_]
    · rw [Finset.card_singleton, Nat.one_mul]
      congr 1
      exact (List.countP_eq_length_filter _ _).symm
    · intro x hx i hi
      rw [Finset.mem_singleton.mp hx, Nat.zero_and]
  · apply prodFold_support (65535 ^^^ m) (activeShifts m) {0}
    · intro i hi nf
      have hile : i ≤ 12 := by
        have := hsub i hi
        fin_cases this <;> norm_num
      have hact : m &&& (0xf <<< i) = 0xf <<< i := by
        rcases hnib i (hsub i hi) with h | h
        · exfalso
          have := List.of_mem_filter hi
          simp only [bne_iff_ne, ne_eq] at this
          exact this h
        · exact h
      exact active_shift_compl hm16 hile hact nf.isLt
    · intro x hx
      rw [Finset.mem_singleton.mp hx, Nat.zero_and]

/-- Witness for amended claim C6 at the two-nibble mask `0x0ff0`. -/
theorem genSubkeysSet_spec_witness :
    0 ∈ genSubkeysSet 0x0ff0 ∧
    (genSubkeysSet 0x0ff0).card = 16 ^ SboxCount 0x0ff0 ∧
    ∀ x ∈ genSubkeysSet 0x0ff0, x &&& (65535 ^^^ 0x0ff0) = 0 :=
  genSubkeysSet_spec 0x0ff0 (by decide) (by decide)
